import Mathlib

/-!
# Verification of the `qs` query-string codec core

A shallow embedding of the codec engine of the `qs` Go package
(struct ↔ `url.Values` marshaling).  The embedding covers the fragment of
the type universe exercised by the verified claims: the primitive leaf
kinds `int` (64-bit, modelled as `Int` with explicit bounds), `bool` and
`string`, plus pointers, fixed-length arrays, variable-length slices, and
one unsupported leaf kind (standing for e.g. `func` types, which the codec
factories reject).  Maps, embedded (anonymous) struct fields and the
`time.Time`/`url.URL` leaves are outside the modelled fragment.

Go `reflect`-based in-place mutation is modelled by explicit state passing:
an unmarshal step takes the prior value and returns the written value
together with a status.  The status distinguishes success, an error return,
and a Go runtime panic (reflect's index-out-of-range), which the source can
hit in `sliceUnmarshaler.Unmarshal`.

The configuration is fixed to the package defaults (`NewDefaultMarshalOptions`
/ `NewDefaultUnmarshalOptions`): default `SliceToString` collapse function,
default presence handling.  Error values are modelled structurally
(constructor + the data the package exposes programmatically, such as the
field name carried by `reqError`); rendered message strings are not modelled.
-/

namespace Qs

/-- `MarshalPresence` from marshal.go: controls marshaling of empty fields. -/
inductive MarshalPresence
  | MPUnspecified
  | KeepEmpty
  | OmitEmpty
deriving DecidableEq, Repr

/-- `UnmarshalPresence` from unmarshal.go: controls unmarshaling of fields
whose key is missing from the query string. -/
inductive UnmarshalPresence
  | UPUnspecified
  | Opt
  | Nil
  | Req
deriving DecidableEq, Repr

/-- The fragment of Go types the claims exercise. `tFunc` stands for a leaf
kind none of the codec factories handles (e.g. a function type). -/
inductive QsType
  | tInt
  | tBool
  | tStr
  | tPtr (elem : QsType)
  | tArray (len : Nat) (elem : QsType)
  | tSlice (elem : QsType)
  | tFunc
deriving DecidableEq, Repr

/-- Values of the modelled Go types.  A nil slice (`vSliceNil`) is distinct
from an allocated empty slice (`vSlice []`), mirroring Go. -/
inductive QsVal
  | vInt (n : Int)
  | vBool (b : Bool)
  | vStr (s : String)
  | vPtr (p : Option QsVal)
  | vArr (elems : List QsVal)
  | vSliceNil
  | vSlice (elems : List QsVal)
  | vFunc
deriving Repr

/-- The two strconv error kinds (`ErrSyntax` / `ErrRange`). -/
inductive NumErrKind
  | malformed
  | outOfRange
deriving DecidableEq, Repr

/-- Structural model of the error values produced by the package
(unmarshal_strings.go part 2 for the named error types; `fmt.Errorf`
wrappings are modelled by the wrapping constructors, keeping the wire key /
index they embed in the message). -/
inductive Err
  | wrongKind
  | wrongType
  | unhandledType
  | reqError (fieldName : String)
  | numError (kind : NumErrKind)
  | collapseError
  | seqLenError (got expected : Nat)
  | arityError (idx got : Nat)
  | idxError (idx : Nat) (inner : Err)
  | entryError (key : String) (inner : Err)
deriving DecidableEq, Repr

/-- Outcome of an unmarshal step: success, an error return, or a Go runtime
panic (reflect index out of range). -/
inductive UStatus
  | ok
  | err (e : Err)
  | panic (msg : String)
deriving DecidableEq, Repr

/-- `IsRequiredFieldError` from the source: recovers the missing field's
name iff the error is a `reqError`. -/
def isRequiredFieldError : Err → Option String
  | .reqError name => some name
  | _ => none

/-- `url.Values` as an association list from key to string list; key order
is irrelevant, order within a key's list is significant. -/
def Values := List (String × List String)

/-- Map lookup `vs[k]`; `none` models the `ok == false` / nil-slice case. -/
def Values.get : Values → String → Option (List String)
  | [], _ => none
  | (k, a) :: rest, key => if k = key then some a else Values.get rest key

/-- Map store `vs[k] = a` (overwrites an existing entry for the key). -/
def Values.set : Values → String → List String → Values
  | [], key, a => [(key, a)]
  | (k, b) :: rest, key, a =>
      if k = key then (key, a) :: rest else (k, b) :: Values.set rest key a

/-! ## Model of the strconv collaborators

The source delegates text conversion of scalars to `strconv`.  The package
always calls `strconv.ParseInt(s, 0, bitSize)` (base 0: prefix detection and
underscore tolerance) and `strconv.FormatInt(i, 10)`.  Both are modelled
below, specialised to base 0 resp. base 10.  `ParseInt` is only observed
through success/error kind, so range errors drop Go's clamped partial value.
-/

/-- strconv's `lower`: fold an ASCII letter to lower case (`c | 0x20`). -/
def goLower (c : Char) : Char :=
  Char.ofNat (c.toNat % 256 ||| 0x20)

/-- The character for a single decimal digit (`'0' + d`). -/
def digitChar (d : Nat) : Char :=
  Char.ofNat (48 + d)

/-- Digit value of a character as in strconv's per-byte switch: decimal
digits, then letters via `lower`; anything else is a syntax error. -/
def charDigit (c : Char) : Option Nat :=
  if '0' ≤ c ∧ c ≤ '9' then some (c.toNat - 48)
  else
    let l := goLower c
    if 'a' ≤ l ∧ l ≤ 'z' then some (l.toNat - 97 + 10)
    else none

/-- Base detection of `ParseUint` with `base == 0`: `0b`/`0o`/`0x` prefixes
(needing at least one further character), a bare leading `0` selecting
legacy octal, else decimal. -/
def detectBase : List Char → Nat × List Char
  | [] => (10, [])
  | c :: rest =>
    if c = '0' then
      match rest with
      | c2 :: rest2 =>
        if rest2 ≠ [] ∧ goLower c2 = 'b' then (2, rest2)
        else if rest2 ≠ [] ∧ goLower c2 = 'o' then (8, rest2)
        else if rest2 ≠ [] ∧ goLower c2 = 'x' then (16, rest2)
        else (8, rest)
      | [] => (8, [])
    else (10, c :: rest)

/-- The accumulation loop of `ParseUint`: per character, skip `_` (recording
that one was seen), convert the digit, reject digits outside the base, and
guard against overflow with the `cutoff`/`maxVal` checks before and after
`n = n*base + d`.  Returns the value and whether an underscore was seen. -/
def puLoop (base maxVal cutoff : Nat) : List Char → Nat → Bool → Except Err (Nat × Bool)
  | [], n, sawU => .ok (n, sawU)
  | c :: cs, n, sawU =>
    if c = '_' then puLoop base maxVal cutoff cs n true
    else
      match charDigit c with
      | none => .error (.numError .malformed)
      | some d =>
        if d ≥ base then .error (.numError .malformed)
        else if n ≥ cutoff then .error (.numError .outOfRange)
        else if n * base + d > maxVal then .error (.numError .outOfRange)
        else puLoop base maxVal cutoff cs (n * base + d) sawU

/-- strconv's `underscoreOK`: underscores only between a base prefix /
digits and digits.  The scanner state `saw` is `'^'` at start, `'0'` after a
digit or base prefix, `'_'` after an underscore, `'!'` after anything else. -/
def underscoreOKLoop (hex : Bool) : Char → List Char → Bool
  | saw, [] => saw ≠ '_'
  | saw, c :: cs =>
    if ('0' ≤ c ∧ c ≤ '9') ∨ (hex ∧ 'a' ≤ goLower c ∧ goLower c ≤ 'f') then
      underscoreOKLoop hex '0' cs
    else if c = '_' then
      if saw ≠ '0' then false else underscoreOKLoop hex '_' cs
    else if saw = '_' then false
    else underscoreOKLoop hex '!' cs

/-- strconv's `underscoreOK` driver: skip a sign, consume a base prefix. -/
def underscoreOK (cs : List Char) : Bool :=
  let cs1 := match cs with
    | c :: rest => if c = '-' ∨ c = '+' then rest else cs
    | [] => cs
  match cs1 with
  | c1 :: c2 :: rest =>
    if c1 = '0' ∧ (goLower c2 = 'b' ∨ goLower c2 = 'o' ∨ goLower c2 = 'x') then
      underscoreOKLoop (goLower c2 = 'x') '0' rest
    else underscoreOKLoop false '^' cs1
  | _ => underscoreOKLoop false '^' cs1

/-- `strconv.ParseUint(s, 0, bitSize)` on the already-sign-stripped
character list: empty input is a syntax error; detect the base; run the
digit loop with `maxVal = 2^bitSize - 1` and the base's 64-bit `cutoff`;
reject ill-placed underscores. -/
def parseUintCore (bitSize : Nat) (cs0 : List Char) : Except Err Nat :=
  match cs0 with
  | [] => .error (.numError .malformed)
  | _ :: _ =>
    let bd := detectBase cs0
    let maxVal := 2 ^ bitSize - 1
    let cutoff := (2 ^ 64 - 1) / bd.1 + 1
    match puLoop bd.1 maxVal cutoff bd.2 0 false with
    | .error e => .error e
    | .ok (n, sawU) =>
      if sawU ∧ ¬ underscoreOK cs0 then .error (.numError .malformed)
      else .ok n

/-- The tail of `strconv.ParseInt` after the sign is known: parse the
magnitude with `ParseUint`, then apply the signed cutoff `2^(bitSize-1)`.
(Go turns a range error from `ParseUint` into a range error here as well,
since the clamped magnitude always trips the signed cutoff.) -/
def parseIntSigned (bitSize : Nat) (neg : Bool) (mag : List Char) : Except Err Int :=
  match parseUintCore bitSize mag with
  | .error e => .error e
  | .ok un =>
    let cutoff := 2 ^ (bitSize - 1)
    if ¬ neg ∧ un ≥ cutoff then .error (.numError .outOfRange)
    else if neg ∧ un > cutoff then .error (.numError .outOfRange)
    else .ok (if neg then -(un : Int) else (un : Int))

/-- `strconv.ParseInt(s, 0, bitSize)`: empty input is a syntax error; strip
the sign and finish on the magnitude. -/
def parseIntB0 (bitSize : Nat) (s : String) : Except Err Int :=
  match s.toList with
  | [] => .error (.numError .malformed)
  | c :: rest =>
    parseIntSigned bitSize (c = '-') (if c = '+' ∨ c = '-' then rest else c :: rest)

/-- `strconv.ParseBool`. -/
def parseBool (s : String) : Except Err Bool :=
  if s = "1" ∨ s = "t" ∨ s = "T" ∨ s = "true" ∨ s = "TRUE" ∨ s = "True" then .ok true
  else if s = "0" ∨ s = "f" ∨ s = "F" ∨ s = "false" ∨ s = "FALSE" ∨ s = "False" then .ok false
  else .error (.numError .malformed)

/-- `strconv.FormatBool`. -/
def formatBool (b : Bool) : String :=
  if b then "true" else "false"

/-- Decimal digit characters of a natural number, most significant first. -/
def natDigits (n : Nat) : List Char :=
  if n < 10 then [digitChar n]
  else natDigits (n / 10) ++ [digitChar (n % 10)]
decreasing_by exact Nat.div_lt_self (by omega) (by omega)

/-- `strconv.FormatInt(i, 10)` (via `FormatUint` on the magnitude). -/
def formatInt (i : Int) : String :=
  if i < 0 then "-" ++ String.mk (natDigits (-i).toNat)
  else String.mk (natDigits i.toNat)

/-! ## Value shape / type identity

Go's reflect guarantees that a `reflect.Value` handed to a codec carries a
full type; every codec method compares `v.Type()` against the type it was
built for.  `valMatches` is the corresponding well-typedness predicate of
the embedding (for `tInt` it also carries the 64-bit bounds that hold for
every Go `int` value).  Inside the codecs themselves the `v.Type() != p.Type`
guard appears as the constructor match on the value, failing with
`wrongTypeError` on shape mismatch.
-/

/-- Well-typedness of a modelled value at a modelled type. -/
def valMatches : QsType → QsVal → Bool
  | .tInt, .vInt n => decide (-(2 ^ 63) ≤ n) && decide (n < 2 ^ 63)
  | .tBool, .vBool _ => true
  | .tStr, .vStr _ => true
  | .tPtr _, .vPtr none => true
  | .tPtr t, .vPtr (some v) => valMatches t v
  | .tArray n t, .vArr es => es.length == n && es.all (fun v => valMatches t v)
  | .tSlice _, .vSliceNil => true
  | .tSlice t, .vSlice es => es.all (fun v => valMatches t v)
  | .tFunc, .vFunc => true
  | _, _ => false

/-- The zero value of a type (what `reflect.New` allocates). -/
def zeroVal : QsType → QsVal
  | .tInt => .vInt 0
  | .tBool => .vBool false
  | .tStr => .vStr ""
  | .tPtr _ => .vPtr none
  | .tArray n t => .vArr (List.replicate n (zeroVal t))
  | .tSlice _ => .vSliceNil
  | .tFunc => .vFunc

/-- The primitive leaf kinds handled by the scalar codec set in the
modelled fragment. -/
def isLeaf : QsType → Bool
  | .tInt | .tBool | .tStr => true
  | _ => false

/-- `isEmpty` from marshal_values.go: the zero/empty test used by
`OmitEmpty` (nil pointer, false, zero number, zero length). -/
def isEmpty : QsVal → Bool
  | .vPtr p => p.isNone
  | .vBool b => !b
  | .vInt n => n == 0
  | .vStr s => s.length == 0
  | .vArr es => es.length == 0
  | .vSliceNil => true
  | .vSlice es => es.length == 0
  | .vFunc => false

/-! ## Scalar-ish unmarshalers (unmarshal_strings.go)

An `Unmarshaler.Unmarshal(v, a, opts)` call mutates `v` in place; the model
returns the written value paired with a `UStatus`.  `a : Option (List String)`
distinguishes Go's nil `[]string` (`none`, the absent-key case) from a
present, possibly empty one (`some a`).
-/

/-- `defaultSliceToString` from unmarshal.go: the default multi-value
collapse function, requiring exactly one string. -/
def sliceToStringDefault : List String → Except Err String
  | [s] => .ok s
  | _ => .error .collapseError

/-- Modelled from the spec: the wrapper the unmarshaler factory puts around
a primitive kind's decoder (the factory source file is not under src/).
Per the package documentation in unmarshal.go ("opt succeeds and keeps the
original field value"), a nil string slice leaves the value untouched;
otherwise the strings are collapsed through `opts.SliceToString` (here the
default) and the single-string decoder runs. -/
def primUnmarshal (base : QsVal → String → QsVal × UStatus)
    (v : QsVal) (a? : Option (List String)) : QsVal × UStatus :=
  match a? with
  | none => (v, .ok)
  | some a =>
    match sliceToStringDefault a with
    | .error e => (v, .err e)
    | .ok s => base v s

/-- `unmarshalInt` specialised to kind `int` (`bitSize` 0, i.e. 64): kind
check, `strconv.ParseInt(s, 0, 64)`, then `SetInt`. -/
def unmarshalIntS (v : QsVal) (s : String) : QsVal × UStatus :=
  match v with
  | .vInt _ =>
    match parseIntB0 64 s with
    | .ok i => (.vInt i, .ok)
    | .error e => (v, .err e)
  | _ => (v, .err .wrongKind)

/-- `unmarshalBool`: kind check, `strconv.ParseBool`, `SetBool`. -/
def unmarshalBoolS (v : QsVal) (s : String) : QsVal × UStatus :=
  match v with
  | .vBool _ =>
    match parseBool s with
    | .ok b => (.vBool b, .ok)
    | .error e => (v, .err e)
  | _ => (v, .err .wrongKind)

/-- `unmarshalString`: kind check, then `SetString`. -/
def unmarshalStringS (v : QsVal) (s : String) : QsVal × UStatus :=
  match v with
  | .vStr _ => (.vStr s, .ok)
  | _ => (v, .err .wrongKind)

/-- The element loop shared by `arrayUnmarshaler.Unmarshal` and
`sliceUnmarshaler.Unmarshal`: `for i := range a`, decode `a[i:i+1]` into
`v.Index(i)`.  Reading `v.Index(i)` past the value's length is a reflect
panic.  An element error is wrapped with the index and aborts the loop;
elements already written keep their new values, later elements their old
ones. -/
def seqUnmarshalLoop (eu : QsVal → Option (List String) → QsVal × UStatus) :
    List QsVal → List String → Nat → List QsVal × UStatus
  | es, [], _ => (es, .ok)
  | [], _ :: _, _ => ([], .panic "reflect: array index out of range")
  | e :: es, s :: ss, i =>
    let r := eu e (some [s])
    match r.2 with
    | .ok =>
      let rest := seqUnmarshalLoop eu es ss (i + 1)
      (r.1 :: rest.1, rest.2)
    | .err er => (r.1 :: es, .err (.idxError i er))
    | .panic m => (r.1 :: es, .panic m)

/-- The scalar-ish unmarshaler for a type, assembled as the (cached)
unmarshaler factory does: pointers via `ptrUnmarshaler`, arrays via
`arrayUnmarshaler`, slices via `sliceUnmarshaler`, primitive kinds via the
primitive wrapper around the kind's decoder.

* `ptrUnmarshaler.Unmarshal`: type check; nil input returns untouched;
  a nil pointer is allocated (`reflect.New`) before decoding into the elem.
* `arrayUnmarshaler.Unmarshal`: type check; nil input returns untouched;
  a length mismatch is an error; else the element loop runs.
* `sliceUnmarshaler.Unmarshal`: type check; **no** nil-input guard; a nil
  slice is replaced by `reflect.MakeSlice(t, len(a), len(a))`; the element
  loop then writes the first `len(a)` positions in place. -/
def unmarshal : QsType → QsVal → Option (List String) → QsVal × UStatus
  | .tInt, v, a? => primUnmarshal unmarshalIntS v a?
  | .tBool, v, a? => primUnmarshal unmarshalBoolS v a?
  | .tStr, v, a? => primUnmarshal unmarshalStringS v a?
  | .tFunc, v, _ => (v, .err .unhandledType)
  | .tPtr t, v, a? =>
    match v with
    | .vPtr p =>
      match a? with
      | none => (.vPtr p, .ok)
      | some a =>
        let inner := p.getD (zeroVal t)
        let r := unmarshal t inner (some a)
        (.vPtr (some r.1), r.2)
    | v => (v, .err .wrongType)
  | .tArray n t, v, a? =>
    match v with
    | .vArr es =>
      match a? with
      | none => (.vArr es, .ok)
      | some a =>
        if a.length ≠ n then (.vArr es, .err (.seqLenError a.length n))
        else
          let r := seqUnmarshalLoop (fun e s? => unmarshal t e s?) es a 0
          (.vArr r.1, r.2)
    | v => (v, .err .wrongType)
  | .tSlice t, v, a? =>
    match v with
    | .vSliceNil =>
      let a := a?.getD []
      let r := seqUnmarshalLoop (fun e s? => unmarshal t e s?)
        (List.replicate a.length (zeroVal t)) a 0
      (.vSlice r.1, r.2)
    | .vSlice es =>
      let a := a?.getD []
      let r := seqUnmarshalLoop (fun e s? => unmarshal t e s?) es a 0
      (.vSlice r.1, r.2)
    | v => (v, .err .wrongType)

/-! ## Scalar-ish marshalers (marshal_strings.go) -/

/-- The element loop of `arrayAndSliceMarshaler.Marshal`: each element is
marshaled and must yield exactly one string; an element error or a
wrong-arity result aborts with the index. -/
def seqMarshalLoop (em : QsVal → Except Err (List String)) :
    List QsVal → Nat → Except Err (List String)
  | [], _ => .ok []
  | e :: es, i =>
    match em e with
    | .error er => .error (.idxError i er)
    | .ok a2 =>
      match a2 with
      | [s] =>
        match seqMarshalLoop em es (i + 1) with
        | .error er => .error er
        | .ok rest => .ok (s :: rest)
      | _ => .error (.arityError i a2.length)

/-- The scalar-ish marshaler for a type, assembled as the (cached)
marshaler factory does.

* `ptrMarshaler.Marshal`: nil pointer yields no strings, else the elem is
  marshaled.
* `arrayAndSliceMarshaler.Marshal`: a zero-length value yields no strings
  (`return nil, nil`); else the element loop runs (each element must yield
  exactly one string — checked here, at marshal time).
* primitive kinds: the single string of the kind's encoder (the factory's
  primitive wrapper turns it into a one-element list). -/
def marshal : QsType → QsVal → Except Err (List String)
  | .tInt, .vInt n => .ok [formatInt n]
  | .tInt, _ => .error .wrongKind
  | .tBool, .vBool b => .ok [formatBool b]
  | .tBool, _ => .error .wrongKind
  | .tStr, .vStr s => .ok [s]
  | .tStr, _ => .error .wrongKind
  | .tFunc, _ => .error .unhandledType
  | .tPtr t, v =>
    match v with
    | .vPtr none => .ok []
    | .vPtr (some iv) => marshal t iv
    | _ => .error .wrongType
  | .tArray _ t, v =>
    match v with
    | .vArr es => if es.length = 0 then .ok [] else seqMarshalLoop (fun e => marshal t e) es 0
    | _ => .error .wrongType
  | .tSlice t, v =>
    match v with
    | .vSliceNil => .ok []
    | .vSlice es => if es.length = 0 then .ok [] else seqMarshalLoop (fun e => marshal t e) es 0
    | _ => .error .wrongType

/-- Construction outcome of the marshaler factory for a type.  The
recursive dispatch itself is modelled from the spec (section 4.3; the
factory source file is not under src/), but the constructors in src/ fix
what can fail: `newPtrMarshaler` and `newArrayAndSliceMarshaler` fail only
when the element type's marshaler cannot be built — no element-arity check
happens at construction time. -/
def buildMarshaler : QsType → Except Err Unit
  | .tInt | .tBool | .tStr => .ok ()
  | .tFunc => .error .unhandledType
  | .tPtr t => buildMarshaler t
  | .tArray _ t => buildMarshaler t
  | .tSlice t => buildMarshaler t

/-! ## The record codec (marshal_values.go / the struct unmarshaler file)

A struct codec holds, per non-embedded field, the parsed tag (wire name and
the two presence options, already resolved against the defaults at build
time) and the field's sub-codec.  `FieldDesc` is that descriptor, carrying
the field's type, from which the sub-codec is obtained.  Field order is
declaration order and `FieldIndex` is the position in the list; a struct
value is the list of its field values in that order.  Embedded (anonymous)
fields are outside the modelled fragment: the `Fields` loops below are the
direct-field loops of `MarshalValues` / `UnmarshalValues`.
-/

/-- A struct field descriptor: `fieldMarshaler`/`fieldUnmarshaler` data
(parsed tag name and presence options, and the sub-codec via `ty`). -/
structure FieldDesc where
  name : String
  mp : MarshalPresence
  up : UnmarshalPresence
  ty : QsType
deriving DecidableEq, Repr

/-- Type identity check of the struct codecs (`t != p.Type`), expressed as
shape agreement between the descriptor list and the value list. -/
def structMatches (fields : List FieldDesc) (sv : List QsVal) : Bool :=
  fields.length == sv.length &&
    (fields.zip sv).all (fun p => valMatches p.1.ty p.2)

/-- The zero value of a struct type (fresh destination of `Unmarshal`). -/
def zeroStruct (fields : List FieldDesc) : List QsVal :=
  fields.map (fun f => zeroVal f.ty)

/-- The field loop of `structMarshaler.MarshalValues`, threading the result
map being built: skip an `OmitEmpty` field whose value `isEmpty`; marshal
the field (an error is wrapped with the wire key and aborts, returning no
map); store the string list under the wire key only when it is non-empty. -/
def structMarshalFields : List (FieldDesc × QsVal) → Values → Except Err Values
  | [], vs => .ok vs
  | (f, fv) :: rest, vs =>
    if f.mp = .OmitEmpty ∧ isEmpty fv then structMarshalFields rest vs
    else
      match marshal f.ty fv with
      | .error e => .error (.entryError f.name e)
      | .ok a =>
        structMarshalFields rest (if a.length ≠ 0 then Values.set vs f.name a else vs)

/-- `structMarshaler.MarshalValues`: type check, then the field loop on an
empty result map. -/
def structMarshalValues (fields : List FieldDesc) (sv : List QsVal) : Except Err Values :=
  if structMatches fields sv then structMarshalFields (fields.zip sv) []
  else .error .wrongType

/-- The field loop of `structUnmarshaler.UnmarshalValues`, parameterised by
the sub-codec resolver `u` (the `fum.Unmarshaler` each descriptor holds).
Per field: look up the wire key; if absent, `Req` fails with a `reqError`
carrying the wire key, `Nil` skips the field entirely, and any other
presence falls through to the sub-codec with a nil string slice; if
present, the sub-codec runs on the found strings.  A sub-codec error is
wrapped with the wire key and aborts the loop; fields already decoded keep
their new values and later fields their old ones (the destination is
mutated in place). -/
def structUnmarshalFieldsWith (u : FieldDesc → QsVal → Option (List String) → QsVal × UStatus) :
    List (FieldDesc × QsVal) → Values → List QsVal × UStatus
  | [], _ => ([], .ok)
  | (f, fv) :: rest, vs =>
    match Values.get vs f.name, f.up with
    | none, .Req => (fv :: rest.map Prod.snd, .err (.reqError f.name))
    | none, .Nil =>
      let r := structUnmarshalFieldsWith u rest vs
      (fv :: r.1, r.2)
    | a?, _ =>
      let s := u f fv a?
      match s.2 with
      | .ok =>
        let r := structUnmarshalFieldsWith u rest vs
        (s.1 :: r.1, r.2)
      | .err e => (s.1 :: rest.map Prod.snd, .err (.entryError f.name e))
      | .panic m => (s.1 :: rest.map Prod.snd, .panic m)

/-- The field loop with each field's actual sub-codec. -/
def structUnmarshalFields (pairs : List (FieldDesc × QsVal)) (vs : Values) :
    List QsVal × UStatus :=
  structUnmarshalFieldsWith (fun f fv a? => unmarshal f.ty fv a?) pairs vs

/-- `structUnmarshaler.UnmarshalValues`: type check, then the field loop. -/
def structUnmarshalValues (fields : List FieldDesc) (sv : List QsVal) (vs : Values) :
    List QsVal × UStatus :=
  if structMatches fields sv then structUnmarshalFields (fields.zip sv) vs
  else (sv, .err .wrongType)

/-! ## The codec cache (marshaler_cache.go / unmarshaler_cache.go)

All four cache decorators have the same shape; the model is polymorphic in
the key type (type identity) and the codec type.  A factory resolution
yields either a codec or a construction error, and the cache stores
whichever outcome results.  The `syncMap` is modelled as an association
list; the claims address sequential use, so the lock is not modelled.
-/

/-- `syncMap.Load`. -/
def cacheLoad {κ γ : Type} [DecidableEq κ] :
    List (κ × Except Err γ) → κ → Option (Except Err γ)
  | [], _ => none
  | (k, r) :: rest, key => if k = key then some r else cacheLoad rest key

/-- One resolution request against a cache decorator
(`marshalerCache.Marshaler` and its three siblings): on a hit return the
stored codec or stored error without invoking the wrapped factory; on a
miss invoke the wrapped factory once, store whichever outcome results, and
return it.  The `Bool` reports whether the wrapped factory was invoked. -/
def cacheResolve {κ γ : Type} [DecidableEq κ] (wrapped : κ → Except Err γ)
    (st : List (κ × Except Err γ)) (t : κ) :
    Except Err γ × List (κ × Except Err γ) × Bool :=
  match cacheLoad st t with
  | some r => (r, st, false)
  | none =>
    let r := wrapped t
    (r, (t, r) :: st, true)

/-! ## Lemmas about the strconv model -/

theorem natDigits_lt {n : Nat} (h : n < 10) : natDigits n = [digitChar n] := by
  rw [natDigits]
  simp [h]

theorem natDigits_ge {n : Nat} (h : 10 ≤ n) :
    natDigits n = natDigits (n / 10) ++ [digitChar (n % 10)] := by
  rw [natDigits]
  simp [Nat.not_lt.mpr h]

theorem natDigits_ne_nil (n : Nat) : natDigits n ≠ [] := by
  by_cases h : n < 10
  · simp [natDigits_lt h]
  · simp [natDigits_ge (Nat.not_lt.mp h)]

theorem charDigit_digitChar {d : Nat} (h : d < 10) : charDigit (digitChar d) = some d := by
  interval_cases d <;> decide

theorem digitChar_ne_underscore {d : Nat} (h : d < 10) : digitChar d ≠ '_' := by
  interval_cases d <;> decide

theorem digitChar_ne_sign {d : Nat} (h : d < 10) : digitChar d ≠ '-' ∧ digitChar d ≠ '+' := by
  interval_cases d <;> exact ⟨by decide, by decide⟩

theorem digitChar_ne_zero {d : Nat} (h0 : d ≠ 0) (h : d < 10) : digitChar d ≠ '0' := by
  interval_cases d <;> first | exact absurd rfl h0 | decide

theorem natDigits_head_digit {n : Nat} {c : Char} {cs : List Char}
    (h : natDigits n = c :: cs) : ∃ d, d < 10 ∧ c = digitChar d := by
  induction n using Nat.strong_induction_on generalizing c cs with
  | _ n ih =>
    by_cases hn : n < 10
    · rw [natDigits_lt hn] at h
      exact ⟨n, hn, (List.cons.injEq ..▸ h).1.symm⟩
    · rw [natDigits_ge (Nat.not_lt.mp hn)] at h
      rcases hd : natDigits (n / 10) with _ | ⟨c0, cs0⟩
      · exact absurd hd (natDigits_ne_nil _)
      · rw [hd] at h
        simp only [List.cons_append, List.cons.injEq] at h
        exact h.1 ▸ ih (n / 10) (Nat.div_lt_self (by omega) (by omega)) hd

theorem natDigits_head_ne_zero {n : Nat} {c : Char} {cs : List Char}
    (hn : 0 < n) (h : natDigits n = c :: cs) : c ≠ '0' := by
  induction n using Nat.strong_induction_on generalizing c cs with
  | _ n ih =>
    by_cases h10 : n < 10
    · rw [natDigits_lt h10] at h
      exact (List.cons.injEq ..▸ h).1 ▸ digitChar_ne_zero (by omega) h10
    · rw [natDigits_ge (Nat.not_lt.mp h10)] at h
      rcases hd : natDigits (n / 10) with _ | ⟨c0, cs0⟩
      · exact absurd hd (natDigits_ne_nil _)
      · rw [hd] at h
        simp only [List.cons_append, List.cons.injEq] at h
        exact h.1 ▸ ih (n / 10) (Nat.div_lt_self (by omega) (by omega))
          (Nat.div_pos (by omega) (by omega)) hd

theorem puLoop_append (base maxVal cutoff : Nat) (xs ys : List Char) (p : Nat) (u : Bool) :
    puLoop base maxVal cutoff (xs ++ ys) p u =
      match puLoop base maxVal cutoff xs p u with
      | .ok r => puLoop base maxVal cutoff ys r.1 r.2
      | .error e => .error e := by
  induction xs generalizing p u with
  | nil => simp [puLoop]
  | cons c cs ih =>
    by_cases hc : c = '_'
    · simp [puLoop, hc, ih]
    · rcases hd : charDigit c with _ | d
      · simp [puLoop, hc, hd]
      · by_cases hb : d ≥ base
        · simp [puLoop, hc, hd, hb]
        · by_cases hcut : p ≥ cutoff
          · simp [puLoop, hc, hd, hb, hcut]
          · by_cases hmax : p * base + d > maxVal
            · simp [puLoop, hc, hd, hb, hcut, hmax]
            · simp [puLoop, hc, hd, hb, hcut, hmax, ih]

theorem pow64 : (2 : Nat) ^ 64 = 18446744073709551616 := by norm_num

theorem puLoop_natDigits (n p : Nat)
    (hub : p * 10 ^ (natDigits n).length + n ≤ 2 ^ 64 - 1) :
    puLoop 10 (2 ^ 64 - 1) ((2 ^ 64 - 1) / 10 + 1) (natDigits n) p false
      = .ok (p * 10 ^ (natDigits n).length + n, false) := by
  induction n using Nat.strong_induction_on generalizing p with
  | _ n ih =>
    by_cases h10 : n < 10
    · rw [natDigits_lt h10] at hub ⊢
      simp only [List.length_cons, List.length_nil, pow_one, zero_add] at hub ⊢
      have hne := digitChar_ne_underscore h10
      have hM : (2 : Nat) ^ 64 - 1 = 18446744073709551615 := by rw [pow64]
      rw [hM] at hub ⊢
      have hb : ¬ n ≥ 10 := by omega
      have hcut : ¬ p ≥ 18446744073709551615 / 10 + 1 := by omega
      have hmax : ¬ p * 10 + n > 18446744073709551615 := by omega
      simp [puLoop, hne, charDigit_digitChar h10, hb, hcut, hmax]
    · have hge := Nat.not_lt.mp h10
      rw [natDigits_ge hge] at hub ⊢
      rw [puLoop_append]
      have hlt : n / 10 < n := Nat.div_lt_self (by omega) (by omega)
      have hmod := Nat.div_add_mod n 10
      have hmm : n % 10 < 10 := Nat.mod_lt n (by omega)
      have hlen : (natDigits (n / 10) ++ [digitChar (n % 10)]).length
          = (natDigits (n / 10)).length + 1 := by simp
      rw [hlen] at hub ⊢
      set L := (natDigits (n / 10)).length with hL
      have hM : (2 : Nat) ^ 64 - 1 = 18446744073709551615 := by rw [pow64]
      rw [hM] at hub ⊢
      have hpow : p * 10 ^ (L + 1) = p * 10 ^ L * 10 := by ring
      rw [hpow] at hub ⊢
      set q := p * 10 ^ L with hq
      have hub' : q + n / 10 ≤ 18446744073709551615 := by omega
      have hstep := ih (n / 10) hlt p (by rw [hM, ← hq]; omega)
      rw [hM, ← hq] at hstep
      rw [hstep]
      have hb : ¬ n % 10 ≥ 10 := by omega
      have hcut : ¬ q + n / 10 ≥ 18446744073709551615 / 10 + 1 := by omega
      have hmax : ¬ (q + n / 10) * 10 + n % 10 > 18446744073709551615 := by omega
      simp [puLoop, digitChar_ne_underscore hmm, charDigit_digitChar hmm, hb, hcut, hmax]
      omega

theorem parseUintCore_natDigits {n : Nat} (h : n ≤ 2 ^ 64 - 1) :
    parseUintCore 64 (natDigits n) = .ok n := by
  by_cases h0 : n = 0
  · subst h0
    rw [natDigits_lt (by omega)]
    rfl
  · rcases hd : natDigits n with _ | ⟨c, cs⟩
    · exact absurd hd (natDigits_ne_nil _)
    · have hc0 : c ≠ '0' := natDigits_head_ne_zero (by omega) hd
      have hdet : detectBase (c :: cs) = (10, c :: cs) := by simp [detectBase, hc0]
      have hloop := puLoop_natDigits n 0 (by simpa using h)
      rw [hd] at hloop
      simp only [parseUintCore, hdet, hloop, zero_mul, zero_add]
      rw [← hd] at hloop ⊢
      simp [hloop]

theorem formatInt_toList_nonneg {i : Int} (h : 0 ≤ i) :
    (formatInt i).toList = natDigits i.toNat := by
  rw [formatInt, if_neg (by omega)]
  rfl

theorem formatInt_toList_neg {i : Int} (h : i < 0) :
    (formatInt i).toList = '-' :: natDigits (-i).toNat := by
  rw [formatInt, if_pos h]
  show ("-" ++ String.mk (natDigits (-i).toNat)).data = _
  rw [String.data_append]
  rfl

theorem parseIntSigned_eval {bitSize : Nat} {neg : Bool} {mag : List Char} {un : Nat}
    (hp : parseUintCore bitSize mag = .ok un) :
    parseIntSigned bitSize neg mag =
      if ¬ neg ∧ un ≥ 2 ^ (bitSize - 1) then .error (.numError .outOfRange)
      else if neg ∧ un > 2 ^ (bitSize - 1) then .error (.numError .outOfRange)
      else .ok (if neg then -(un : Int) else (un : Int)) := by
  simp only [parseIntSigned, hp]

/-- `strconv.ParseInt(s, 0, 64)` inverts `strconv.FormatInt(i, 10)` on
every value of the Go `int` type. -/
theorem parseIntB0_formatInt {i : Int} (h1 : -(2 ^ 63) ≤ i) (h2 : i < 2 ^ 63) :
    parseIntB0 64 (formatInt i) = .ok i := by
  by_cases hneg : i < 0
  · have hts := formatInt_toList_neg hneg
    have hmag : (-i).toNat ≤ 2 ^ 64 - 1 := by
      have : (2 : Int) ^ 63 ≤ 2 ^ 64 - 1 := by norm_num
      omega
    have hpu := parseUintCore_natDigits hmag
    have hcut : ¬ ((-i).toNat > 2 ^ (64 - 1)) := by
      have : (2 : Int) ^ 63 = ((2 ^ (64 - 1) : Nat) : Int) := by norm_num
      omega
    have hred : parseIntB0 64 (formatInt i) = parseIntSigned 64 true (natDigits (-i).toNat) := by
      rcases hd : natDigits (-i).toNat with _ | ⟨c, cs⟩
      · exact absurd hd (natDigits_ne_nil _)
      · rw [parseIntB0, hts, hd]
        simp
    rw [hred, parseIntSigned_eval hpu]
    rw [if_neg (by simp),
      if_neg (by simp; have hh : (2 : Int) ^ 63 = 9223372036854775808 := (by norm_num); omega)]
    have htn : ((-i).toNat : Int) = -i := Int.toNat_of_nonneg (by omega)
    simp [htn]
  · have hpos : 0 ≤ i := by omega
    have hts := formatInt_toList_nonneg hpos
    have hmag : i.toNat ≤ 2 ^ 64 - 1 := by
      have : (2 : Int) ^ 63 ≤ 2 ^ 64 - 1 := by norm_num
      omega
    have hpu := parseUintCore_natDigits hmag
    have hcut : ¬ (i.toNat ≥ 2 ^ (64 - 1)) := by
      have : (2 : Int) ^ 63 = ((2 ^ (64 - 1) : Nat) : Int) := by norm_num
      omega
    have hred : parseIntB0 64 (formatInt i) = parseIntSigned 64 false (natDigits i.toNat) := by
      rcases hd : natDigits i.toNat with _ | ⟨c, cs⟩
      · exact absurd hd (natDigits_ne_nil _)
      · obtain ⟨d, hd10, hcd⟩ := natDigits_head_digit hd
        obtain ⟨hcm, hcp⟩ := digitChar_ne_sign hd10
        rw [← hcd] at hcm hcp
        rw [parseIntB0, hts, hd]
        simp [hcm, hcp]
    rw [hred, parseIntSigned_eval hpu]
    rw [if_neg (by simp; have hh : (2 : Int) ^ 63 = 9223372036854775808 := (by norm_num); omega),
      if_neg (by simp)]
    simp [Int.toNat_of_nonneg hpos]

/-- `strconv.ParseBool` inverts `strconv.FormatBool`. -/
theorem parseBool_formatBool (b : Bool) : parseBool (formatBool b) = .ok b := by
  cases b <;> rfl

/-! ## Lemmas about the leaf codecs -/

theorem string_eq_empty_of_length {s : String} (h : s.length = 0) : s = "" := by
  cases s with
  | mk data =>
    cases data with
    | nil => rfl
    | cons c cs => simp [String.length] at h

/-- Every well-typed value of a leaf type marshals to exactly one string,
and decoding that string into the type's zero value recovers the value. -/
theorem leaf_roundtrip {t : QsType} {v : QsVal} (hl : isLeaf t = true)
    (hv : valMatches t v = true) :
    ∃ s, marshal t v = .ok [s] ∧ unmarshal t (zeroVal t) (some [s]) = (v, .ok) := by
  cases t with
  | tInt =>
    cases v with
    | vInt n =>
      simp only [valMatches, Bool.and_eq_true, decide_eq_true_eq] at hv
      refine ⟨formatInt n, rfl, ?_⟩
      show primUnmarshal unmarshalIntS (.vInt 0) (some [formatInt n]) = _
      simp [primUnmarshal, sliceToStringDefault, unmarshalIntS,
        parseIntB0_formatInt hv.1 hv.2]
    | vBool _ => simp [valMatches] at hv
    | vStr _ => simp [valMatches] at hv
    | vPtr _ => simp [valMatches] at hv
    | vArr _ => simp [valMatches] at hv
    | vSliceNil => simp [valMatches] at hv
    | vSlice _ => simp [valMatches] at hv
    | vFunc => simp [valMatches] at hv
  | tBool =>
    cases v with
    | vBool b =>
      refine ⟨formatBool b, rfl, ?_⟩
      show primUnmarshal unmarshalBoolS (.vBool false) (some [formatBool b]) = _
      simp [primUnmarshal, sliceToStringDefault, unmarshalBoolS, parseBool_formatBool b]
    | vInt _ => simp [valMatches] at hv
    | vStr _ => simp [valMatches] at hv
    | vPtr _ => simp [valMatches] at hv
    | vArr _ => simp [valMatches] at hv
    | vSliceNil => simp [valMatches] at hv
    | vSlice _ => simp [valMatches] at hv
    | vFunc => simp [valMatches] at hv
  | tStr =>
    cases v with
    | vStr s =>
      exact ⟨s, rfl, rfl⟩
    | vInt _ => simp [valMatches] at hv
    | vBool _ => simp [valMatches] at hv
    | vPtr _ => simp [valMatches] at hv
    | vArr _ => simp [valMatches] at hv
    | vSliceNil => simp [valMatches] at hv
    | vSlice _ => simp [valMatches] at hv
    | vFunc => simp [valMatches] at hv
  | tPtr t => simp [isLeaf] at hl
  | tArray n t => simp [isLeaf] at hl
  | tSlice t => simp [isLeaf] at hl
  | tFunc => simp [isLeaf] at hl

/-- A well-typed empty value of a leaf type is the type's zero value. -/
theorem leaf_empty_zero {t : QsType} {v : QsVal} (hl : isLeaf t = true)
    (hv : valMatches t v = true) (he : isEmpty v = true) : v = zeroVal t := by
  cases t <;> cases v <;>
    simp_all [isLeaf, valMatches, isEmpty, zeroVal]
  exact string_eq_empty_of_length (by assumption)

/-- The zero value of a leaf type is well typed. -/
theorem leaf_zero_matches {t : QsType} (hl : isLeaf t = true) :
    valMatches t (zeroVal t) = true := by
  cases t <;> simp_all [isLeaf, zeroVal, valMatches]

/-- A leaf sub-codec given a nil string slice leaves the value untouched. -/
theorem leaf_unmarshal_none {t : QsType} (hl : isLeaf t = true) (v : QsVal) :
    unmarshal t v none = (v, .ok) := by
  cases t <;> simp_all [isLeaf, unmarshal, primUnmarshal]

/-! ## Lemmas about the `url.Values` model -/

theorem Values.get_set_self (vs : Values) (k : String) (a : List String) :
    (Values.set vs k a).get k = some a := by
  induction vs with
  | nil => simp [Values.set, Values.get]
  | cons kv rest ih =>
    by_cases h : kv.1 = k
    · simp [Values.set, Values.get, h]
    · simp [Values.set, Values.get, h, ih]

theorem Values.get_set_ne (vs : Values) {k k' : String} (h : k' ≠ k) (a : List String) :
    (Values.set vs k a).get k' = vs.get k' := by
  induction vs with
  | nil => simp [Values.set, Values.get, Ne.symm h]
  | cons kv rest ih =>
    by_cases hk : kv.1 = k
    · subst hk
      simp [Values.set, Values.get, Ne.symm h]
    · by_cases hk' : kv.1 = k'
      · simp [Values.set, Values.get, hk, hk', h]
      · simp [Values.set, Values.get, hk, hk', h, ih]

/-! ## Unfolding and decomposition lemmas for the record codec loops -/

theorem structUFW_cons_req (u : FieldDesc → QsVal → Option (List String) → QsVal × UStatus)
    {f : FieldDesc} (fv : QsVal) (rest : List (FieldDesc × QsVal)) {vs : Values}
    (h1 : Values.get vs f.name = none) (h2 : f.up = .Req) :
    structUnmarshalFieldsWith u ((f, fv) :: rest) vs
      = (fv :: rest.map Prod.snd, .err (.reqError f.name)) := by
  simp [structUnmarshalFieldsWith, h1, h2]

theorem structUFW_cons_nil (u : FieldDesc → QsVal → Option (List String) → QsVal × UStatus)
    {f : FieldDesc} (fv : QsVal) (rest : List (FieldDesc × QsVal)) {vs : Values}
    (h1 : Values.get vs f.name = none) (h2 : f.up = .Nil) :
    structUnmarshalFieldsWith u ((f, fv) :: rest) vs
      = (fv :: (structUnmarshalFieldsWith u rest vs).1,
         (structUnmarshalFieldsWith u rest vs).2) := by
  simp [structUnmarshalFieldsWith, h1, h2]

theorem structUFW_cons_step (u : FieldDesc → QsVal → Option (List String) → QsVal × UStatus)
    {f : FieldDesc} (fv : QsVal) (rest : List (FieldDesc × QsVal)) {vs : Values}
    {a? : Option (List String)}
    (harm : Values.get vs f.name = a? ∧ (a? = none → f.up ≠ .Req ∧ f.up ≠ .Nil)) :
    structUnmarshalFieldsWith u ((f, fv) :: rest) vs
      = match (u f fv a?).2 with
        | .ok => ((u f fv a?).1 :: (structUnmarshalFieldsWith u rest vs).1,
                  (structUnmarshalFieldsWith u rest vs).2)
        | .err e => ((u f fv a?).1 :: rest.map Prod.snd, .err (.entryError f.name e))
        | .panic m => ((u f fv a?).1 :: rest.map Prod.snd, .panic m) := by
  obtain ⟨h1, h2⟩ := harm
  cases a? with
  | none =>
    obtain ⟨hr, hn⟩ := h2 rfl
    cases hu : f.up with
    | UPUnspecified => simp [structUnmarshalFieldsWith, h1, hu]
    | Opt => simp [structUnmarshalFieldsWith, h1, hu]
    | Nil => exact absurd hu hn
    | Req => exact absurd hu hr
  | some a =>
    cases hu : f.up <;> simp [structUnmarshalFieldsWith, h1, hu]

theorem structUFW_append_ok (u : FieldDesc → QsVal → Option (List String) → QsVal × UStatus)
    (xs ys : List (FieldDesc × QsVal)) (vs : Values)
    (h : (structUnmarshalFieldsWith u xs vs).2 = .ok) :
    structUnmarshalFieldsWith u (xs ++ ys) vs
      = ((structUnmarshalFieldsWith u xs vs).1 ++ (structUnmarshalFieldsWith u ys vs).1,
         (structUnmarshalFieldsWith u ys vs).2) := by
  induction xs with
  | nil => simp [structUnmarshalFieldsWith]
  | cons pr xs ih =>
    obtain ⟨f, fv⟩ := pr
    rcases hg : Values.get vs f.name with _ | a
    · cases hu : f.up with
      | Req =>
        rw [structUFW_cons_req u fv _ hg hu] at h
        exact absurd h (by simp)
      | Nil =>
        rw [structUFW_cons_nil u fv _ hg hu] at h
        rw [structUFW_cons_nil u fv _ hg hu, List.cons_append,
          structUFW_cons_nil u fv _ hg hu, ih h]
        simp
      | UPUnspecified =>
        have harm : Values.get vs f.name = none ∧
            ((none : Option (List String)) = none → f.up ≠ .Req ∧ f.up ≠ .Nil) :=
          ⟨hg, fun _ => by simp [hu]⟩
        rw [structUFW_cons_step u fv xs harm] at h
        rw [List.cons_append, structUFW_cons_step u fv (xs ++ ys) harm,
          structUFW_cons_step u fv xs harm]
        rcases hs : (u f fv none).2 with _ | e | m
        · simp only [hs] at h ⊢
          rw [ih h]
          simp
        · simp [hs] at h
        · simp [hs] at h
      | Opt =>
        have harm : Values.get vs f.name = none ∧
            ((none : Option (List String)) = none → f.up ≠ .Req ∧ f.up ≠ .Nil) :=
          ⟨hg, fun _ => by simp [hu]⟩
        rw [structUFW_cons_step u fv xs harm] at h
        rw [List.cons_append, structUFW_cons_step u fv (xs ++ ys) harm,
          structUFW_cons_step u fv xs harm]
        rcases hs : (u f fv none).2 with _ | e | m
        · simp only [hs] at h ⊢
          rw [ih h]
          simp
        · simp [hs] at h
        · simp [hs] at h
    · have harm : Values.get vs f.name = some a ∧
          ((some a : Option (List String)) = none → f.up ≠ .Req ∧ f.up ≠ .Nil) :=
        ⟨hg, by simp⟩
      rw [structUFW_cons_step u fv xs harm] at h
      rw [List.cons_append, structUFW_cons_step u fv (xs ++ ys) harm,
        structUFW_cons_step u fv xs harm]
      rcases hs : (u f fv (some a)).2 with _ | e | m
      · simp only [hs] at h ⊢
        rw [ih h]
        simp
      · simp [hs] at h
      · simp [hs] at h

theorem structMF_append_ok (xs ys : List (FieldDesc × QsVal)) (acc acc' : Values)
    (h : structMarshalFields xs acc = .ok acc') :
    structMarshalFields (xs ++ ys) acc = structMarshalFields ys acc' := by
  induction xs generalizing acc with
  | nil =>
    simp only [structMarshalFields] at h
    cases h
    simp
  | cons pr xs ih =>
    obtain ⟨f, fv⟩ := pr
    by_cases ho : f.mp = .OmitEmpty ∧ isEmpty fv
    · rw [structMarshalFields, if_pos ho] at h
      rw [List.cons_append, structMarshalFields, if_pos ho]
      exact ih acc h
    · rw [structMarshalFields, if_neg ho] at h
      rw [List.cons_append, structMarshalFields, if_neg ho]
      rcases hm : marshal f.ty fv with e | a
      · simp [hm] at h
      · simp only [hm] at h ⊢
        exact ih _ h

/-- Keys named by none of the remaining fields are not touched by the
marshal loop. -/
theorem structMF_frame (xs : List (FieldDesc × QsVal)) (acc out : Values) (k : String)
    (hk : ∀ pr ∈ xs, pr.1.name ≠ k)
    (h : structMarshalFields xs acc = .ok out) :
    Values.get out k = Values.get acc k := by
  induction xs generalizing acc with
  | nil =>
    simp only [structMarshalFields] at h
    cases h
    rfl
  | cons pr xs ih =>
    obtain ⟨f, fv⟩ := pr
    have hfk : f.name ≠ k := hk (f, fv) (by simp)
    have hk' : ∀ pr ∈ xs, pr.1.name ≠ k := fun pr hpr => hk pr (by simp [hpr])
    by_cases ho : f.mp = .OmitEmpty ∧ isEmpty fv
    · rw [structMarshalFields, if_pos ho] at h
      exact ih acc hk' h
    · rw [structMarshalFields, if_neg ho] at h
      rcases hm : marshal f.ty fv with e | a
      · simp [hm] at h
      · simp only [hm] at h
        by_cases ha : a.length ≠ 0
        · rw [if_pos ha] at h
          rw [ih _ hk' h, Values.get_set_ne _ (Ne.symm hfk)]
        · rw [if_neg ha] at h
          exact ih _ hk' h

/-! ## Shapes of the errors the scalar codecs can produce -/

theorem puLoop_err {base maxVal cutoff : Nat} {cs : List Char} {n : Nat} {u : Bool} {e : Err}
    (h : puLoop base maxVal cutoff cs n u = .error e) : ∃ k, e = .numError k := by
  induction cs generalizing n u with
  | nil => simp [puLoop] at h
  | cons c cs ih =>
    by_cases hc : c = '_'
    · rw [puLoop, if_pos hc] at h
      exact ih h
    · rw [puLoop, if_neg hc] at h
      rcases hd : charDigit c with _ | d
      · simp [hd] at h
        exact ⟨_, h.symm⟩
      · simp only [hd] at h
        by_cases hb : d ≥ base
        · rw [if_pos hb] at h
          exact ⟨_, (Except.error.injEq .. ▸ h).symm⟩
        · rw [if_neg hb] at h
          by_cases hcu : n ≥ cutoff
          · rw [if_pos hcu] at h
            exact ⟨_, (Except.error.injEq .. ▸ h).symm⟩
          · rw [if_neg hcu] at h
            by_cases hm : n * base + d > maxVal
            · rw [if_pos hm] at h
              exact ⟨_, (Except.error.injEq .. ▸ h).symm⟩
            · rw [if_neg hm] at h
              exact ih h

theorem parseUintCore_err {bitSize : Nat} {cs : List Char} {e : Err}
    (h : parseUintCore bitSize cs = .error e) : ∃ k, e = .numError k := by
  cases cs with
  | nil =>
    simp [parseUintCore] at h
    exact ⟨_, h.symm⟩
  | cons c cs =>
    simp only [parseUintCore] at h
    rcases hp : puLoop (detectBase (c :: cs)).1 (2 ^ bitSize - 1)
        ((2 ^ 64 - 1) / (detectBase (c :: cs)).1 + 1) (detectBase (c :: cs)).2 0 false
      with e' | r
    · rw [hp] at h
      simp only [] at h
      cases h
      exact puLoop_err hp
    · rw [hp] at h
      simp only [] at h
      by_cases hs : r.2 = true ∧ ¬ underscoreOK (c :: cs) = true
      · rw [if_pos hs] at h
        exact ⟨_, (Except.error.injEq .. ▸ h).symm⟩
      · rw [if_neg hs] at h
        simp at h

theorem parseIntSigned_err {bitSize : Nat} {neg : Bool} {mag : List Char} {e : Err}
    (h : parseIntSigned bitSize neg mag = .error e) : ∃ k, e = .numError k := by
  rcases hp : parseUintCore bitSize mag with e' | un
  · simp only [parseIntSigned, hp] at h
    cases h
    exact parseUintCore_err hp
  · simp only [parseIntSigned, hp] at h
    split at h
    · cases h
      exact ⟨_, rfl⟩
    · split at h
      · cases h
        exact ⟨_, rfl⟩
      · exact absurd h (by simp)

theorem parseIntB0_err {bitSize : Nat} {s : String} {e : Err}
    (h : parseIntB0 bitSize s = .error e) : ∃ k, e = .numError k := by
  rw [parseIntB0] at h
  rcases hts : s.toList with _ | ⟨c, cs⟩
  · rw [hts] at h
    cases h
    exact ⟨_, rfl⟩
  · rw [hts] at h
    exact parseIntSigned_err h

theorem parseBool_err {s : String} {e : Err}
    (h : parseBool s = .error e) : ∃ k, e = .numError k := by
  rw [parseBool] at h
  by_cases h1 : s = "1" ∨ s = "t" ∨ s = "T" ∨ s = "true" ∨ s = "TRUE" ∨ s = "True"
  · rw [if_pos h1] at h
    simp at h
  · rw [if_neg h1] at h
    by_cases h2 : s = "0" ∨ s = "f" ∨ s = "F" ∨ s = "false" ∨ s = "FALSE" ∨ s = "False"
    · rw [if_pos h2] at h
      simp at h
    · rw [if_neg h2] at h
      exact ⟨_, (Except.error.injEq .. ▸ h).symm⟩

/-! ## Lemmas about the sequence element loop -/

theorem seqUnmarshalLoop_err {eu : QsVal → Option (List String) → QsVal × UStatus}
    {es : List QsVal} {ss : List String} {i : Nat} {e : Err}
    (h : (seqUnmarshalLoop eu es ss i).2 = .err e) : ∃ j e', e = .idxError j e' := by
  induction es generalizing ss i with
  | nil =>
    cases ss with
    | nil => simp [seqUnmarshalLoop] at h
    | cons s ss => simp [seqUnmarshalLoop] at h
  | cons v es ih =>
    cases ss with
    | nil => simp [seqUnmarshalLoop] at h
    | cons s ss =>
      rw [seqUnmarshalLoop] at h
      rcases hs : (eu v (some [s])).2 with _ | e' | m
      · simp only [hs] at h
        exact ih h
      · simp only [hs] at h
        cases h
        exact ⟨_, _, rfl⟩
      · simp [hs] at h

theorem seqUnmarshalLoop_length (eu : QsVal → Option (List String) → QsVal × UStatus)
    (es : List QsVal) (ss : List String) (i : Nat) :
    ((seqUnmarshalLoop eu es ss i).1).length = es.length := by
  induction es generalizing ss i with
  | nil =>
    cases ss <;> simp [seqUnmarshalLoop]
  | cons v es ih =>
    cases ss with
    | nil => simp [seqUnmarshalLoop]
    | cons s ss =>
      rw [seqUnmarshalLoop]
      rcases hs : (eu v (some [s])).2 with _ | e' | m <;> simp [hs, ih]

theorem seqUnmarshalLoop_drop (eu : QsVal → Option (List String) → QsVal × UStatus)
    (es : List QsVal) (ss : List String) (i : Nat) :
    (seqUnmarshalLoop eu es ss i).1.drop ss.length = es.drop ss.length := by
  induction es generalizing ss i with
  | nil =>
    cases ss <;> simp [seqUnmarshalLoop]
  | cons v es ih =>
    cases ss with
    | nil => simp [seqUnmarshalLoop]
    | cons s ss =>
      rw [seqUnmarshalLoop]
      rcases hs : (eu v (some [s])).2 with _ | e' | m <;> simp [hs, ih]

theorem seqUnmarshalLoop_ok_le {eu : QsVal → Option (List String) → QsVal × UStatus}
    {es : List QsVal} {ss : List String} {i : Nat}
    (h : (seqUnmarshalLoop eu es ss i).2 = .ok) : ss.length ≤ es.length := by
  induction es generalizing ss i with
  | nil =>
    cases ss with
    | nil => simp
    | cons s ss => simp [seqUnmarshalLoop] at h
  | cons v es ih =>
    cases ss with
    | nil => simp
    | cons s ss =>
      rw [seqUnmarshalLoop] at h
      rcases hs : (eu v (some [s])).2 with _ | e' | m
      · simp only [hs] at h
        simpa using ih h
      · simp [hs] at h
      · simp [hs] at h

/-- The default collapse function fails only with `collapseError`. -/
theorem sliceToStringDefault_err {a : List String} {e : Err}
    (h : sliceToStringDefault a = .error e) : e = .collapseError := by
  rcases a with _ | ⟨x, xs⟩
  · cases h; rfl
  · rcases xs with _ | ⟨y, ys⟩
    · simp [sliceToStringDefault] at h
    · cases h; rfl

/-- The scalar-ish unmarshalers never return a required-field error:
`reqError` is produced only by the record codec. -/
theorem unmarshal_no_req (t : QsType) (v : QsVal) (a? : Option (List String)) {e : Err}
    (h : (unmarshal t v a?).2 = .err e) : isRequiredFieldError e = none := by
  induction t generalizing v a? with
  | tInt =>
    rw [unmarshal] at h
    rcases a? with _ | a
    · simp [primUnmarshal] at h
    · rw [primUnmarshal] at h
      rcases hc : sliceToStringDefault a with e' | s
      · simp only [hc] at h
        cases h
        rw [sliceToStringDefault_err hc]
        rfl
      · simp only [hc] at h
        rcases v with n | b | s' | p | es | _ | es | _ <;> simp only [unmarshalIntS] at h
        · rcases hp : parseIntB0 64 s with e' | i
          · simp only [hp] at h
            cases h
            obtain ⟨k, hk⟩ := parseIntB0_err hp
            simp [hk, isRequiredFieldError]
          · simp [hp] at h
        all_goals (cases h; rfl)
  | tBool =>
    rw [unmarshal] at h
    rcases a? with _ | a
    · simp [primUnmarshal] at h
    · rw [primUnmarshal] at h
      rcases hc : sliceToStringDefault a with e' | s
      · simp only [hc] at h
        cases h
        rw [sliceToStringDefault_err hc]
        rfl
      · simp only [hc] at h
        rcases v with n | b | s' | p | es | _ | es | _ <;> simp only [unmarshalBoolS] at h
        · cases h; rfl
        · rcases hp : parseBool s with e' | b'
          · simp only [hp] at h
            cases h
            obtain ⟨k, hk⟩ := parseBool_err hp
            simp [hk, isRequiredFieldError]
          · simp [hp] at h
        all_goals (cases h; rfl)
  | tStr =>
    rw [unmarshal] at h
    rcases a? with _ | a
    · simp [primUnmarshal] at h
    · rw [primUnmarshal] at h
      rcases hc : sliceToStringDefault a with e' | s
      · simp only [hc] at h
        cases h
        rw [sliceToStringDefault_err hc]
        rfl
      · simp only [hc] at h
        rcases v with n | b | s' | p | es | _ | es | _ <;>
          simp only [unmarshalStringS] at h
        · cases h; rfl
        · cases h; rfl
        · simp at h
        all_goals (cases h; rfl)
  | tFunc =>
    rw [unmarshal] at h
    cases h
    rfl
  | tPtr t iht =>
    cases v with
    | vPtr p =>
      rcases a? with _ | a
      · cases h
      · exact iht _ _ h
    | vInt n => cases h; rfl
    | vBool b => cases h; rfl
    | vStr s => cases h; rfl
    | vArr es => cases h; rfl
    | vSliceNil => cases h; rfl
    | vSlice es => cases h; rfl
    | vFunc => cases h; rfl
  | tArray n t iht =>
    cases v with
    | vArr es =>
      rcases a? with _ | a
      · cases h
      · by_cases hl : a.length ≠ n
        · have hv : (unmarshal (.tArray n t) (.vArr es) (some a)).2
              = .err (.seqLenError a.length n) := by
            simp [unmarshal, hl]
          rw [hv] at h
          cases h
          rfl
        · have hv : (unmarshal (.tArray n t) (.vArr es) (some a)).2
              = (seqUnmarshalLoop (fun e s? => unmarshal t e s?) es a 0).2 := by
            simp [unmarshal, hl]
          rw [hv] at h
          obtain ⟨j, e', he⟩ := seqUnmarshalLoop_err h
          simp [he, isRequiredFieldError]
    | vInt m => cases h; rfl
    | vBool b => cases h; rfl
    | vStr s => cases h; rfl
    | vPtr p => cases h; rfl
    | vSliceNil => cases h; rfl
    | vSlice es => cases h; rfl
    | vFunc => cases h; rfl
  | tSlice t iht =>
    cases v with
    | vSliceNil =>
      have hv : (unmarshal (.tSlice t) .vSliceNil a?).2
          = (seqUnmarshalLoop (fun e s? => unmarshal t e s?)
              (List.replicate (a?.getD []).length (zeroVal t)) (a?.getD []) 0).2 := by
        simp [unmarshal]
      rw [hv] at h
      obtain ⟨j, e', he⟩ := seqUnmarshalLoop_err h
      simp [he, isRequiredFieldError]
    | vSlice es =>
      have hv : (unmarshal (.tSlice t) (.vSlice es) a?).2
          = (seqUnmarshalLoop (fun e s? => unmarshal t e s?) es (a?.getD []) 0).2 := by
        simp [unmarshal]
      rw [hv] at h
      obtain ⟨j, e', he⟩ := seqUnmarshalLoop_err h
      simp [he, isRequiredFieldError]
    | vInt m => cases h; rfl
    | vBool b => cases h; rfl
    | vStr s => cases h; rfl
    | vPtr p => cases h; rfl
    | vArr es => cases h; rfl
    | vFunc => cases h; rfl

/-- The record decode loop produces a required-field error only for a `Req`
field whose wire key is absent: with every `Req` field's key present, any
failure is a wrapped (non-`reqError`) error. -/
theorem structUF_no_req {pairs : List (FieldDesc × QsVal)} {vs : Values} {e : Err}
    (hreq : ∀ pr ∈ pairs, pr.1.up = .Req → Values.get vs pr.1.name ≠ none)
    (h : (structUnmarshalFields pairs vs).2 = .err e) :
    isRequiredFieldError e = none := by
  induction pairs with
  | nil => simp [structUnmarshalFields, structUnmarshalFieldsWith] at h
  | cons pr rest ih =>
    obtain ⟨f, fv⟩ := pr
    have hreq' : ∀ pr ∈ rest, pr.1.up = .Req → Values.get vs pr.1.name ≠ none :=
      fun pr hpr => hreq pr (by simp [hpr])
    rw [structUnmarshalFields] at h
    rcases hg : Values.get vs f.name with _ | a
    · cases hu : f.up with
      | Req => exact absurd hg (hreq (f, fv) (by simp) hu)
      | Nil =>
        rw [structUFW_cons_nil _ fv _ hg hu] at h
        exact ih hreq' h
      | UPUnspecified =>
        rw [structUFW_cons_step _ fv rest ⟨hg, fun _ => by simp [hu]⟩] at h
        rcases hs : (unmarshal f.ty fv none).2 with _ | e' | m
        · simp only [hs] at h
          exact ih hreq' h
        · simp only [hs] at h
          cases h
          rfl
        · simp [hs] at h
      | Opt =>
        rw [structUFW_cons_step _ fv rest ⟨hg, fun _ => by simp [hu]⟩] at h
        rcases hs : (unmarshal f.ty fv none).2 with _ | e' | m
        · simp only [hs] at h
          exact ih hreq' h
        · simp only [hs] at h
          cases h
          rfl
        · simp [hs] at h
    · rw [structUFW_cons_step _ fv rest ⟨hg, by simp⟩] at h
      rcases hs : (unmarshal f.ty fv (some a)).2 with _ | e' | m
      · simp only [hs] at h
        exact ih hreq' h
      · simp only [hs] at h
        cases h
        rfl
      · simp [hs] at h

/-- A successful run of the marshal loop over an appended list splits into
successful runs over the two halves. -/
theorem structMF_append_ok_inv {xs ys : List (FieldDesc × QsVal)} {acc out : Values}
    (h : structMarshalFields (xs ++ ys) acc = .ok out) :
    ∃ acc', structMarshalFields xs acc = .ok acc' ∧ structMarshalFields ys acc' = .ok out := by
  induction xs generalizing acc with
  | nil => exact ⟨acc, rfl, h⟩
  | cons pr xs ih =>
    obtain ⟨f, fv⟩ := pr
    by_cases ho : f.mp = .OmitEmpty ∧ isEmpty fv
    · rw [List.cons_append, structMarshalFields, if_pos ho] at h
      obtain ⟨acc', h1, h2⟩ := ih h
      refine ⟨acc', ?_, h2⟩
      rw [structMarshalFields, if_pos ho]
      exact h1
    · rw [List.cons_append, structMarshalFields, if_neg ho] at h
      rcases hm : marshal f.ty fv with e | a
      · simp [hm] at h
      · simp only [hm] at h
        obtain ⟨acc', h1, h2⟩ := ih h
        refine ⟨acc', ?_, h2⟩
        rw [structMarshalFields, if_neg ho]
        simp only [hm]
        exact h1

/-- What a successful encode leaves under a given field's wire key, when no
other field shares that key: nothing for a skipped `OmitEmpty` field or an
empty string list, the field's string list otherwise. -/
theorem structMF_get_at {pre post : List (FieldDesc × QsVal)} {f : FieldDesc} {fv : QsVal}
    {acc out : Values} {a : List String}
    (hpre : ∀ pr ∈ pre, pr.1.name ≠ f.name)
    (hpost : ∀ pr ∈ post, pr.1.name ≠ f.name)
    (hm : marshal f.ty fv = .ok a)
    (henc : structMarshalFields (pre ++ (f, fv) :: post) acc = .ok out) :
    Values.get out f.name =
      if f.mp = .OmitEmpty ∧ isEmpty fv then Values.get acc f.name
      else if a.length ≠ 0 then some a else Values.get acc f.name := by
  obtain ⟨acc1, h1, h2⟩ := structMF_append_ok_inv henc
  have hacc1 : Values.get acc1 f.name = Values.get acc f.name :=
    structMF_frame pre acc acc1 f.name hpre h1
  by_cases ho : f.mp = .OmitEmpty ∧ isEmpty fv
  · rw [structMarshalFields, if_pos ho] at h2
    rw [if_pos ho, structMF_frame post acc1 out f.name hpost h2, hacc1]
  · rw [structMarshalFields, if_neg ho] at h2
    simp only [hm] at h2
    rw [if_neg ho]
    by_cases ha : a.length ≠ 0
    · rw [if_pos ha] at h2
      rw [if_pos ha, structMF_frame post _ out f.name hpost h2, Values.get_set_self]
    · rw [if_neg ha] at h2
      rw [if_neg ha, structMF_frame post _ out f.name hpost h2, hacc1]

/-- Decoding into the zero struct recovers the field values, given that each
(leaf-typed, well-typed) field's wire key either carries exactly the field's
marshaled string or was omitted as `OmitEmpty`-empty. -/
theorem structUF_leaf_decode (pairs : List (FieldDesc × QsVal)) (vs : Values)
    (hfacts : ∀ pr ∈ pairs, isLeaf pr.1.ty = true ∧ valMatches pr.1.ty pr.2 = true ∧
       ((pr.1.mp = .OmitEmpty ∧ isEmpty pr.2 = true ∧ Values.get vs pr.1.name = none) ∨
        (∃ s, marshal pr.1.ty pr.2 = .ok [s] ∧ Values.get vs pr.1.name = some [s])))
    (hok : (structUnmarshalFields (pairs.map (fun pr => (pr.1, zeroVal pr.1.ty))) vs).2 = .ok) :
    (structUnmarshalFields (pairs.map (fun pr => (pr.1, zeroVal pr.1.ty))) vs).1
      = pairs.map Prod.snd := by
  induction pairs with
  | nil => simp [structUnmarshalFields, structUnmarshalFieldsWith]
  | cons pr rest ih =>
    obtain ⟨f, fv⟩ := pr
    obtain ⟨hl, hv, hcase⟩ := hfacts (f, fv) (by simp)
    dsimp only at hl hv hcase
    have hfacts' : ∀ pr ∈ rest, isLeaf pr.1.ty = true ∧ valMatches pr.1.ty pr.2 = true ∧
        ((pr.1.mp = .OmitEmpty ∧ isEmpty pr.2 = true ∧ Values.get vs pr.1.name = none) ∨
         (∃ s, marshal pr.1.ty pr.2 = .ok [s] ∧ Values.get vs pr.1.name = some [s])) :=
      fun pr hpr => hfacts pr (by simp [hpr])
    simp only [List.map_cons] at hok ⊢
    rw [structUnmarshalFields] at hok ⊢
    rcases hcase with ⟨homit, hemp, hnone⟩ | ⟨s, hms, hsome⟩
    · have hzero : fv = zeroVal f.ty := leaf_empty_zero hl hv hemp
      cases hu : f.up with
      | Req =>
        rw [structUFW_cons_req _ _ _ hnone hu] at hok
        simp at hok
      | Nil =>
        rw [structUFW_cons_nil _ _ _ hnone hu] at hok ⊢
        simp only [List.map_cons, Prod.snd]
        rw [← structUnmarshalFields] at hok ⊢
        rw [ih hfacts' hok, ← hzero]
      | UPUnspecified =>
        rw [structUFW_cons_step _ _ _ ⟨hnone, fun _ => by simp [hu]⟩] at hok ⊢
        have hstep : unmarshal f.ty (zeroVal f.ty) none = (zeroVal f.ty, .ok) :=
          leaf_unmarshal_none hl _
        simp only [hstep] at hok ⊢
        rw [← structUnmarshalFields] at hok ⊢
        rw [ih hfacts' hok, ← hzero]
      | Opt =>
        rw [structUFW_cons_step _ _ _ ⟨hnone, fun _ => by simp [hu]⟩] at hok ⊢
        have hstep : unmarshal f.ty (zeroVal f.ty) none = (zeroVal f.ty, .ok) :=
          leaf_unmarshal_none hl _
        simp only [hstep] at hok ⊢
        rw [← structUnmarshalFields] at hok ⊢
        rw [ih hfacts' hok, ← hzero]
    · obtain ⟨s', hms', hun⟩ := leaf_roundtrip hl hv
      have hseq : s' = s := by
        rw [hms'] at hms
        exact (List.cons.injEq .. ▸ (Except.ok.injEq .. ▸ hms)).1
      rw [structUFW_cons_step _ _ _ ⟨hsome, by simp⟩] at hok ⊢
      have hstep : unmarshal f.ty (zeroVal f.ty) (some [s]) = (fv, .ok) := hseq ▸ hun
      simp only [hstep] at hok ⊢
      rw [← structUnmarshalFields] at hok ⊢
      rw [ih hfacts' hok]

/-- After a successful encode of a record with distinct wire keys and
leaf-typed, well-typed fields, each field's key is either absent (omitted as
`OmitEmpty`-empty) or carries exactly the field's single marshaled string. -/
theorem c1_encode_facts (pairs : List (FieldDesc × QsVal)) (out : Values)
    (hnd : (pairs.map (fun pr => pr.1.name)).Nodup)
    (hleafv : ∀ pr ∈ pairs, isLeaf pr.1.ty = true ∧ valMatches pr.1.ty pr.2 = true)
    (henc : structMarshalFields pairs [] = .ok out) :
    ∀ pr ∈ pairs,
      (pr.1.mp = .OmitEmpty ∧ isEmpty pr.2 = true ∧ Values.get out pr.1.name = none) ∨
      (∃ s, marshal pr.1.ty pr.2 = .ok [s] ∧ Values.get out pr.1.name = some [s]) := by
  intro pr hpr
  obtain ⟨hl, hv⟩ := hleafv pr hpr
  obtain ⟨pre, post, hdecomp⟩ := List.append_of_mem hpr
  have hnames : (pre.map (fun pr => pr.1.name) ++ pr.1.name :: post.map (fun pr => pr.1.name)).Nodup := by
    rw [hdecomp] at hnd
    simpa using hnd
  have hnotpre : pr.1.name ∉ pre.map (fun pr => pr.1.name) := by
    have hdisj := (List.nodup_append.mp hnames).2.2
    intro hmem
    exact hdisj hmem (by simp)
  have hnotpost : pr.1.name ∉ post.map (fun pr => pr.1.name) := by
    have := (List.nodup_append.mp hnames).2.1
    exact (List.nodup_cons.mp this).1
  have hpre : ∀ q ∈ pre, q.1.name ≠ pr.1.name := by
    intro q hq heq
    exact hnotpre (heq ▸ List.mem_map_of_mem (fun pr => pr.1.name) hq)
  have hpost : ∀ q ∈ post, q.1.name ≠ pr.1.name := by
    intro q hq heq
    exact hnotpost (heq ▸ List.mem_map_of_mem (fun pr => pr.1.name) hq)
  obtain ⟨s, hm, _⟩ := leaf_roundtrip hl hv
  rw [hdecomp] at henc
  obtain ⟨f, fv⟩ := pr
  have hget := structMF_get_at hpre hpost hm henc
  by_cases ho : f.mp = .OmitEmpty ∧ isEmpty fv
  · rw [if_pos ho] at hget
    exact .inl ⟨ho.1, ho.2, hget⟩
  · rw [if_neg ho, if_pos (by simp)] at hget
    exact .inr ⟨s, hm, hget⟩

theorem zip_zeroStruct (fields : List FieldDesc) :
    fields.zip (zeroStruct fields) = fields.map (fun f => (f, zeroVal f.ty)) := by
  induction fields with
  | nil => rfl
  | cons f fields ih =>
    rw [zeroStruct] at ih
    simp [zeroStruct, List.zip_cons_cons, ih]

theorem structMatches_iff {fields : List FieldDesc} {sv : List QsVal} :
    structMatches fields sv = true ↔
      fields.length = sv.length ∧ ∀ pr ∈ fields.zip sv, valMatches pr.1.ty pr.2 = true := by
  simp [structMatches, List.all_eq_true]

/-- Decoding a string slice into a fresh `[]string`-typed destination
succeeds for every input, elementwise. -/
theorem seqLoop_str (a : List String) (i : Nat) :
    seqUnmarshalLoop (fun e s? => unmarshal .tStr e s?)
        (List.replicate a.length (zeroVal .tStr)) a i
      = (a.map QsVal.vStr, .ok) := by
  induction a generalizing i with
  | nil => rfl
  | cons s ss ih =>
    simp only [List.length_cons, List.replicate_succ, seqUnmarshalLoop, List.map_cons]
    have hstep : unmarshal .tStr (zeroVal .tStr) (some [s]) = (.vStr s, .ok) := rfl
    rw [hstep]
    simp [ih]

/-! ## The claims -/

/-- C2: requesting a codec twice from a cached factory returns the same
outcome (same codec on success, same error on failure) both times; the
second request is a cache hit that does not invoke the wrapped factory and
leaves the cache unchanged, and a first request on a cold key invokes the
wrapped factory (so the factory runs at most once per key in sequential
use, whichever outcome it produced). -/
theorem c2_cache_idempotent {κ γ : Type} [DecidableEq κ] (wrapped : κ → Except Err γ)
    (st : List (κ × Except Err γ)) (t : κ) :
    (cacheResolve wrapped ((cacheResolve wrapped st t).2.1) t).1 = (cacheResolve wrapped st t).1
    ∧ (cacheResolve wrapped ((cacheResolve wrapped st t).2.1) t).2.1
        = (cacheResolve wrapped st t).2.1
    ∧ (cacheResolve wrapped ((cacheResolve wrapped st t).2.1) t).2.2 = false
    ∧ (cacheLoad st t = none → (cacheResolve wrapped st t).2.2 = true) := by
  rcases hl : cacheLoad st t with _ | r
  · have h1 : cacheResolve wrapped st t = (wrapped t, (t, wrapped t) :: st, true) := by
      rw [cacheResolve, hl]
    have h2 : cacheLoad ((t, wrapped t) :: st) t = some (wrapped t) := by
      simp [cacheLoad]
    have h3 : cacheResolve wrapped ((t, wrapped t) :: st) t
        = (wrapped t, (t, wrapped t) :: st, false) := by
      rw [cacheResolve, h2]
    simp [h1, h3]
  · have h1 : cacheResolve wrapped st t = (r, st, false) := by
      rw [cacheResolve, hl]
    simp [h1, hl]

theorem c2_cache_idempotent_witness :
    ((cacheResolve (fun _ : Nat => (.ok 7 : Except Err Nat))
        ((cacheResolve (fun _ : Nat => (.ok 7 : Except Err Nat)) [] 0).2.1) 0).1
      = (cacheResolve (fun _ : Nat => (.ok 7 : Except Err Nat)) [] 0).1)
    ∧ ((cacheResolve (fun _ : Nat => (.ok 7 : Except Err Nat))
        ((cacheResolve (fun _ : Nat => (.ok 7 : Except Err Nat)) [] 0).2.1) 0).2.2 = false)
    ∧ (cacheResolve (fun _ : Nat => (.ok 7 : Except Err Nat)) [] 0).2.2 = true := by
  obtain ⟨ha, _, hb, hc⟩ :=
    c2_cache_idempotent (fun _ : Nat => (.ok 7 : Except Err Nat)) [] 0
  exact ⟨ha, hb, hc rfl⟩

/-- C3: decoding a record with a `Req` field whose wire key is absent (and
whose earlier fields decode cleanly) fails with a required-field error
carrying that wire key, retrievable through `isRequiredFieldError`; when
every `Req` field's key is present — even mapped to an empty value — the
decode never produces a required-field error (any failure is a wrapped,
non-`reqError` error). -/
theorem c3_required_field (pre post : List (FieldDesc × QsVal)) (f : FieldDesc) (fv : QsVal)
    (vs : Values) (hreq : f.up = .Req) (habs : Values.get vs f.name = none)
    (hpre : (structUnmarshalFields pre vs).2 = .ok) :
    (structUnmarshalFields (pre ++ (f, fv) :: post) vs
        = ((structUnmarshalFields pre vs).1 ++ fv :: post.map Prod.snd,
           .err (.reqError f.name))
      ∧ isRequiredFieldError (.reqError f.name) = some f.name)
    ∧ ∀ (pairs : List (FieldDesc × QsVal)) (vs' : Values) (e : Err),
        (∀ pr ∈ pairs, pr.1.up = .Req → Values.get vs' pr.1.name ≠ none) →
        (structUnmarshalFields pairs vs').2 = .err e →
        isRequiredFieldError e = none := by
  constructor
  · constructor
    · rw [structUnmarshalFields] at hpre ⊢
      rw [structUFW_append_ok _ pre ((f, fv) :: post) vs hpre,
        structUFW_cons_req _ fv post habs hreq]
      simp [structUnmarshalFields]
    · rfl
  · intro pairs vs' e hall h
    exact structUF_no_req hall h

theorem c3_required_field_witness :
    (structUnmarshalFields [(⟨"x", .KeepEmpty, .Req, .tInt⟩, QsVal.vInt 0)] []
        = ([QsVal.vInt 0], .err (.reqError "x"))
      ∧ isRequiredFieldError (.reqError "x") = some "x")
    ∧ isRequiredFieldError (.entryError "x" .collapseError) = none := by
  obtain ⟨⟨ha, hb⟩, hc⟩ :=
    c3_required_field [] [] ⟨"x", .KeepEmpty, .Req, .tInt⟩ (QsVal.vInt 0) [] rfl rfl rfl
  refine ⟨⟨?_, hb⟩, ?_⟩
  · simpa using ha
  · exact hc [(⟨"x", .KeepEmpty, .Req, .tInt⟩, QsVal.vInt 0)] [("x", [])]
      (.entryError "x" .collapseError) (by simp [Values.get]) (by rfl)

/-- C4 (amended): decoding a fixed-length array field from N present input
strings with N different from the declared length fails with a length
error.  Decoding a slice field imposes no length constraint: it succeeds
with exactly N elements whenever every element string decodes (always, for
string elements, shown here for every N including 0), and zero input
strings yield an explicitly allocated empty slice, distinct from a nil one;
but a slice decode can still fail when an element string fails to decode,
so it does not succeed for every N and every element type as claimed. -/
theorem c4_seq_lengths_amended (t : QsType) (es : List QsVal) (a : List String) (n : Nat)
    (hlen : a.length ≠ n) :
    unmarshal (.tArray n t) (.vArr es) (some a) = (.vArr es, .err (.seqLenError a.length n))
    ∧ (∀ b : List String,
        unmarshal (.tSlice .tStr) .vSliceNil (some b) = (.vSlice (b.map QsVal.vStr), .ok)
        ∧ (b.map QsVal.vStr).length = b.length)
    ∧ unmarshal (.tSlice t) .vSliceNil (some []) = (.vSlice [], .ok)
    ∧ QsVal.vSlice [] ≠ QsVal.vSliceNil := by
  refine ⟨by simp [unmarshal, hlen], fun b => ⟨?_, by simp⟩, rfl, fun h => by cases h⟩
  have hloop := seqLoop_str b 0
  calc unmarshal (.tSlice .tStr) .vSliceNil (some b)
      = (.vSlice (seqUnmarshalLoop (fun e s? => unmarshal .tStr e s?)
            (List.replicate b.length (zeroVal .tStr)) b 0).1,
          (seqUnmarshalLoop (fun e s? => unmarshal .tStr e s?)
            (List.replicate b.length (zeroVal .tStr)) b 0).2) := rfl
    _ = (.vSlice (b.map QsVal.vStr), .ok) := by rw [hloop]

/-- C4 counterexample: the claim's "decoding a variable-length sequence
field from any N input strings succeeds" fails on the code: a `[]int` field
decoded from the single string "x" returns an element parse error. -/
theorem c4_counterexample :
    unmarshal (.tSlice .tInt) .vSliceNil (some ["x"])
      = (.vSlice [.vInt 0], .err (.idxError 0 (.numError .malformed))) := rfl

theorem c4_seq_lengths_witness :
    unmarshal (.tArray 3 .tInt) (.vArr [.vInt 0, .vInt 0, .vInt 0]) (some ["1", "2"])
      = (.vArr [.vInt 0, .vInt 0, .vInt 0], .err (.seqLenError 2 3))
    ∧ unmarshal (.tSlice .tStr) .vSliceNil (some ["a", "b"])
      = (.vSlice [.vStr "a", .vStr "b"], .ok)
    ∧ unmarshal (.tSlice .tInt) .vSliceNil (some []) = (.vSlice [], .ok)
    ∧ QsVal.vSlice [] ≠ QsVal.vSliceNil := by
  obtain ⟨ha, hb, hc, hd⟩ :=
    c4_seq_lengths_amended .tInt [.vInt 0, .vInt 0, .vInt 0] ["1", "2"] 3 (by decide)
  exact ⟨ha, (hb ["a", "b"]).1, hc, hd⟩

/-- C8: when a field's wire key is absent and its unmarshal presence is
`Nil`, the decode leaves that field's value entirely untouched and never
invokes its sub-codec: for an arbitrary sub-codec resolver `u`, the result
splices the prior field value between the decoded prefix and suffix and is
built without applying `u` to that field. -/
theorem c8_nil_untouched (u : FieldDesc → QsVal → Option (List String) → QsVal × UStatus)
    (pre post : List (FieldDesc × QsVal)) (f : FieldDesc) (fv : QsVal) (vs : Values)
    (hnil : f.up = .Nil) (habs : Values.get vs f.name = none)
    (hpre : (structUnmarshalFieldsWith u pre vs).2 = .ok) :
    structUnmarshalFieldsWith u (pre ++ (f, fv) :: post) vs
      = ((structUnmarshalFieldsWith u pre vs).1
          ++ fv :: (structUnmarshalFieldsWith u post vs).1,
         (structUnmarshalFieldsWith u post vs).2) := by
  rw [structUFW_append_ok u pre ((f, fv) :: post) vs hpre,
    structUFW_cons_nil u fv post habs hnil]

theorem c8_nil_untouched_witness :
    structUnmarshalFieldsWith (fun f fv a? => unmarshal f.ty fv a?)
        [(⟨"keep", .KeepEmpty, .Nil, .tInt⟩, QsVal.vInt 42)] []
      = ([QsVal.vInt 42], .ok) := by
  have h := c8_nil_untouched (fun f fv a? => unmarshal f.ty fv a?) [] []
    ⟨"keep", .KeepEmpty, .Nil, .tInt⟩ (QsVal.vInt 42) [] rfl rfl rfl
  simpa using h

/-- C9: when a field's wire key is absent and its unmarshal presence is
`Opt`, the field's sub-codec is invoked with a nil string slice (the
decode's outcome for the field is exactly the sub-codec's outcome on `none`);
concretely, a pointer sub-codec then leaves any pointer untouched (a nil
pointer stays nil, nothing is allocated), while a slice sub-codec replaces a
nil slice by an explicitly allocated empty slice of length 0. -/
theorem c9_opt_absent (u : FieldDesc → QsVal → Option (List String) → QsVal × UStatus)
    (f : FieldDesc) (fv : QsVal) (rest : List (FieldDesc × QsVal)) (vs : Values)
    (t : QsType) (p : Option QsVal)
    (hopt : f.up = .Opt) (habs : Values.get vs f.name = none) :
    (structUnmarshalFieldsWith u ((f, fv) :: rest) vs
      = match (u f fv none).2 with
        | .ok => ((u f fv none).1 :: (structUnmarshalFieldsWith u rest vs).1,
                  (structUnmarshalFieldsWith u rest vs).2)
        | .err e => ((u f fv none).1 :: rest.map Prod.snd, .err (.entryError f.name e))
        | .panic m => ((u f fv none).1 :: rest.map Prod.snd, .panic m))
    ∧ unmarshal (.tPtr t) (.vPtr p) none = (.vPtr p, .ok)
    ∧ unmarshal (.tSlice t) .vSliceNil none = (.vSlice [], .ok) := by
  refine ⟨?_, rfl, rfl⟩
  exact structUFW_cons_step u fv rest ⟨habs, fun _ => by simp [hopt]⟩

theorem c9_opt_absent_witness :
    structUnmarshalFieldsWith (fun f fv a? => unmarshal f.ty fv a?)
        [(⟨"s", .KeepEmpty, .Opt, .tSlice .tInt⟩, QsVal.vSliceNil)] []
      = ([QsVal.vSlice []], .ok)
    ∧ unmarshal (.tPtr .tInt) (.vPtr none) none = (.vPtr none, .ok) := by
  obtain ⟨ha, hb, hc⟩ := c9_opt_absent (fun f fv a? => unmarshal f.ty fv a?)
    ⟨"s", .KeepEmpty, .Opt, .tSlice .tInt⟩ QsVal.vSliceNil [] [] .tInt none rfl rfl
  constructor
  · rw [ha]
    rfl
  · exact hb

/-- C10: the variable-length sequence decoder allocates a fresh slice sized
to the input count only when the destination slice is nil; on a non-nil
destination the slice header is kept (the result is a slice of the same
length — no reallocation or resizing), elements past the input count retain
their prior values, and the call completes without error or panic only when
the input string count does not exceed the existing length. -/
theorem c10_slice_inplace (t : QsType) (es : List QsVal) (a : List String) :
    (∃ es2,
      unmarshal (.tSlice t) (.vSlice es) (some a)
        = (.vSlice es2, (seqUnmarshalLoop (fun e s? => unmarshal t e s?) es a 0).2)
      ∧ es2.length = es.length
      ∧ es2.drop a.length = es.drop a.length)
    ∧ ((unmarshal (.tSlice t) (.vSlice es) (some a)).2 = .ok → a.length ≤ es.length)
    ∧ (∃ es3,
      unmarshal (.tSlice t) .vSliceNil (some a)
        = (.vSlice es3, (seqUnmarshalLoop (fun e s? => unmarshal t e s?)
            (List.replicate a.length (zeroVal t)) a 0).2)
      ∧ es3.length = a.length) := by
  refine ⟨⟨(seqUnmarshalLoop (fun e s? => unmarshal t e s?) es a 0).1, by simp [unmarshal],
      seqUnmarshalLoop_length _ es a 0, seqUnmarshalLoop_drop _ es a 0⟩,
    fun hok => ?_,
    ⟨(seqUnmarshalLoop (fun e s? => unmarshal t e s?)
        (List.replicate a.length (zeroVal t)) a 0).1, by simp [unmarshal], ?_⟩⟩
  · have h2 : (seqUnmarshalLoop (fun e s? => unmarshal t e s?) es a 0).2 = .ok := by
      have hv : (unmarshal (.tSlice t) (.vSlice es) (some a)).2
          = (seqUnmarshalLoop (fun e s? => unmarshal t e s?) es a 0).2 := by
        simp [unmarshal]
      rw [hv] at hok
      exact hok
    exact seqUnmarshalLoop_ok_le h2
  · rw [seqUnmarshalLoop_length]
    simp

theorem c10_slice_inplace_witness :
    unmarshal (.tSlice .tStr) (.vSlice [.vStr "p", .vStr "q", .vStr "r"]) (some ["a"])
      = (.vSlice [.vStr "a", .vStr "q", .vStr "r"], .ok)
    ∧ ((unmarshal (.tSlice .tStr) (.vSlice [.vStr "p"]) (some ["a", "b"])).2 = .ok →
        False) := by
  constructor
  · rfl
  · intro hok
    have h := (c10_slice_inplace .tStr [.vStr "p"] ["a", "b"]).2.1 hok
    exact absurd h (by decide)

/-- C1 (amended): for a record whose fields are leaf-typed and carry
pairwise distinct wire keys, whenever decoding (into the zero value of the
record) the multimap produced by encoding a well-typed value succeeds, the
decoded value equals the original field by field.  (Decoding can fail —
only for a `Req` field whose entry was omitted by `OmitEmpty`, as the
counterexample shows — so success is a necessary hypothesis.) -/
theorem c1_leaf_roundtrip_amended (fields : List FieldDesc) (sv : List QsVal)
    (out : Values) (w : List QsVal)
    (hleaf : ∀ f ∈ fields, isLeaf f.ty = true)
    (hnd : (fields.map FieldDesc.name).Nodup)
    (hmatch : structMatches fields sv = true)
    (henc : structMarshalValues fields sv = .ok out)
    (hdec : structUnmarshalValues fields (zeroStruct fields) out = (w, .ok)) :
    w = sv := by
  obtain ⟨hlen, hvm⟩ := structMatches_iff.mp hmatch
  rw [structMarshalValues, if_pos hmatch] at henc
  have hz : structMatches fields (zeroStruct fields) = true := by
    refine structMatches_iff.mpr ⟨by simp [zeroStruct], ?_⟩
    intro pr hpr
    rw [zip_zeroStruct] at hpr
    obtain ⟨f, hf, heq⟩ := List.mem_map.mp hpr
    cases heq
    exact leaf_zero_matches (hleaf f hf)
  rw [structUnmarshalValues, if_pos hz] at hdec
  set pairs := fields.zip sv with hpairs
  have hfst : pairs.map Prod.fst = fields := List.map_fst_zip fields sv (le_of_eq hlen)
  have hmapz : pairs.map (fun pr => (pr.1, zeroVal pr.1.ty))
      = fields.zip (zeroStruct fields) := by
    rw [zip_zeroStruct, ← hfst, List.map_map]
    rfl
  have hnd' : (pairs.map (fun pr => pr.1.name)).Nodup := by
    have hmn : pairs.map (fun pr => pr.1.name) = fields.map FieldDesc.name := by
      rw [← hfst, List.map_map]
      rfl
    rw [hmn]
    exact hnd
  have hleafv : ∀ pr ∈ pairs, isLeaf pr.1.ty = true ∧ valMatches pr.1.ty pr.2 = true := by
    intro pr hpr
    obtain ⟨x, y⟩ := pr
    exact ⟨hleaf x (List.of_mem_zip hpr).1, hvm (x, y) hpr⟩
  have hfacts := c1_encode_facts pairs out hnd' hleafv henc
  rw [← hmapz] at hdec
  have hok : (structUnmarshalFields (pairs.map (fun pr => (pr.1, zeroVal pr.1.ty))) out).2
      = .ok := by
    rw [hdec]
  have hval := structUF_leaf_decode pairs out
    (fun pr hpr => ⟨(hleafv pr hpr).1, (hleafv pr hpr).2, hfacts pr hpr⟩) hok
  have hw : w = pairs.map Prod.snd := by
    have h1 : (structUnmarshalFields (pairs.map (fun pr => (pr.1, zeroVal pr.1.ty))) out).1
        = w := by
      rw [hdec]
    rw [← h1, hval]
  rw [hw]
  exact List.map_snd_zip fields sv (le_of_eq hlen.symm)

/-- C1 counterexample: the round trip does not hold for every supported
record: a record whose only field combines `omitempty` with `req` encodes
its zero value to an empty multimap, and decoding that multimap fails with
a required-field error instead of yielding a value equal to the input. -/
theorem c1_counterexample :
    structMarshalValues [⟨"a", .OmitEmpty, .Req, .tInt⟩] [.vInt 0] = .ok []
    ∧ structUnmarshalValues [⟨"a", .OmitEmpty, .Req, .tInt⟩]
        (zeroStruct [⟨"a", .OmitEmpty, .Req, .tInt⟩]) []
        = ([.vInt 0], .err (.reqError "a")) := by
  exact ⟨rfl, rfl⟩

theorem c1_leaf_roundtrip_witness :
    structMarshalValues
        [⟨"search", .KeepEmpty, .Opt, .tStr⟩, ⟨"flag", .KeepEmpty, .Opt, .tBool⟩]
        [.vStr "my search", .vBool true]
      = .ok [("search", ["my search"]), ("flag", ["true"])]
    ∧ structUnmarshalValues
        [⟨"search", .KeepEmpty, .Opt, .tStr⟩, ⟨"flag", .KeepEmpty, .Opt, .tBool⟩]
        (zeroStruct [⟨"search", .KeepEmpty, .Opt, .tStr⟩, ⟨"flag", .KeepEmpty, .Opt, .tBool⟩])
        [("search", ["my search"]), ("flag", ["true"])]
      = ([.vStr "my search", .vBool true], .ok)
    ∧ ([QsVal.vStr "my search", QsVal.vBool true] : List QsVal)
      = [.vStr "my search", .vBool true] := by
  refine ⟨rfl, rfl, ?_⟩
  exact c1_leaf_roundtrip_amended
    [⟨"search", .KeepEmpty, .Opt, .tStr⟩, ⟨"flag", .KeepEmpty, .Opt, .tBool⟩]
    [.vStr "my search", .vBool true]
    [("search", ["my search"]), ("flag", ["true"])]
    [.vStr "my search", .vBool true]
    (by decide) (by decide) rfl rfl rfl

/-- C5 (amended): under a successful encode with distinct wire keys, an
`OmitEmpty` field whose value is empty leaves no entry under its wire key;
a `KeepEmpty` field produces an entry exactly when its codec emits at least
one string — in particular every leaf-typed (bool/int/string) field, even
with its zero value, produces an entry, while any field whose codec emits
zero strings (e.g. a nil pointer or empty sequence) produces no entry
regardless of the `KeepEmpty` policy. -/
theorem c5_presence_amended (pre post : List (FieldDesc × QsVal)) (f : FieldDesc) (fv : QsVal)
    (out : Values) (a : List String)
    (hpre : ∀ q ∈ pre, q.1.name ≠ f.name) (hpost : ∀ q ∈ post, q.1.name ≠ f.name)
    (hm : marshal f.ty fv = .ok a)
    (henc : structMarshalFields (pre ++ (f, fv) :: post) [] = .ok out) :
    (f.mp = .OmitEmpty → isEmpty fv = true → Values.get out f.name = none)
    ∧ (f.mp = .KeepEmpty → a ≠ [] → Values.get out f.name = some a)
    ∧ (a = [] → Values.get out f.name = none)
    ∧ (isLeaf f.ty = true → valMatches f.ty fv = true → f.mp = .KeepEmpty →
        ∃ s, a = [s] ∧ Values.get out f.name = some [s]) := by
  have hget := structMF_get_at hpre hpost hm henc
  refine ⟨fun ho he => ?_, fun hk hne => ?_, fun ha => ?_, fun hl hv hk => ?_⟩
  · rw [if_pos ⟨ho, he⟩] at hget
    exact hget
  · rw [if_neg (by simp [hk]), if_pos (by simpa using hne)] at hget
    exact hget
  · subst ha
    by_cases ho : f.mp = .OmitEmpty ∧ isEmpty fv = true
    · rw [if_pos ho] at hget
      exact hget
    · rw [if_neg ho, if_neg (by simp)] at hget
      exact hget
  · obtain ⟨s, hms, _⟩ := leaf_roundtrip hl hv
    rw [hms] at hm
    have ha : a = [s] := by
      cases hm
      rfl
    subst ha
    rw [if_neg (by simp [hk]), if_pos (by simp)] at hget
    exact ⟨s, rfl, hget⟩

/-- C5 counterexample: a `KeepEmpty` field does not always produce an
entry: a `keepempty` pointer field holding its zero value (a nil pointer)
marshals to zero strings and the encoder stores nothing under its wire
key. -/
theorem c5_counterexample :
    structMarshalValues [⟨"p", .KeepEmpty, .Opt, .tPtr .tInt⟩] [.vPtr none] = .ok []
    ∧ Values.get [] "p" = none := ⟨rfl, rfl⟩

theorem c5_presence_witness :
    Values.get [("b", ["false"])] "b" = some ["false"]
    ∧ Values.get [("b", ["false"])] "gone" = none := by
  have h := c5_presence_amended [] [(⟨"gone", .OmitEmpty, .Opt, .tBool⟩, QsVal.vBool false)]
    ⟨"b", .KeepEmpty, .Opt, .tBool⟩ (QsVal.vBool false) [("b", ["false"])] ["false"]
    (by simp) (by decide) rfl rfl
  refine ⟨h.2.1 rfl (by simp), ?_⟩
  rfl

/-- C6 (amended): a sub-codec error aborts the enclosing composite
operation and is returned wrapped with the field's wire key.  A failed
encode returns only the error — no partially built multimap reaches the
caller.  A failed decode also returns only the wrapped error and leaves the
fields after the failing one untouched, but the destination value keeps the
fields decoded before the failure — it may be left partially modified, as
the counterexample shows, contrary to the claim's last conjunct. -/
theorem c6_abort_amended :
    (∀ (pre post : List (FieldDesc × QsVal)) (f : FieldDesc) (fv : QsVal)
       (acc acc' : Values) (e : Err),
       structMarshalFields pre acc = .ok acc' →
       ¬ (f.mp = .OmitEmpty ∧ isEmpty fv = true) →
       marshal f.ty fv = .error e →
       structMarshalFields (pre ++ (f, fv) :: post) acc = .error (.entryError f.name e))
    ∧ (∀ (pre post : List (FieldDesc × QsVal)) (f : FieldDesc) (fv : QsVal) (vs : Values)
         (a : List String) (e : Err),
       (structUnmarshalFields pre vs).2 = .ok →
       Values.get vs f.name = some a →
       (unmarshal f.ty fv (some a)).2 = .err e →
       structUnmarshalFields (pre ++ (f, fv) :: post) vs
         = ((structUnmarshalFields pre vs).1
             ++ (unmarshal f.ty fv (some a)).1 :: post.map Prod.snd,
            .err (.entryError f.name e))) := by
  constructor
  · intro pre post f fv acc acc' e hpre hskip hm
    rw [structMF_append_ok pre ((f, fv) :: post) acc acc' hpre,
      structMarshalFields, if_neg hskip]
    simp only [hm]
  · intro pre post f fv vs a e hpre hget hfail
    rw [structUnmarshalFields] at hpre ⊢
    rw [structUFW_append_ok _ pre ((f, fv) :: post) vs hpre,
      structUFW_cons_step _ fv post ⟨hget, by simp⟩]
    simp only [hfail]
    simp [structUnmarshalFields]

/-- C6 counterexample: on a failed decode the destination is left partially
modified: with two int fields and a malformed second entry, the decode
returns the wrapped error, yet the first field of the destination has
already been overwritten (0 became 1). -/
theorem c6_counterexample :
    structUnmarshalValues
        [⟨"a", .KeepEmpty, .Opt, .tInt⟩, ⟨"b", .KeepEmpty, .Opt, .tInt⟩]
        [.vInt 0, .vInt 0] [("a", ["1"]), ("b", ["x"])]
      = ([.vInt 1, .vInt 0], .err (.entryError "b" (.numError .malformed)))
    ∧ [QsVal.vInt 1, QsVal.vInt 0] ≠ [QsVal.vInt 0, QsVal.vInt 0] := by
  refine ⟨rfl, fun h => ?_⟩
  simp at h

theorem c6_abort_witness :
    structMarshalFields [(⟨"f", .KeepEmpty, .Opt, .tFunc⟩, QsVal.vFunc)] []
      = .error (.entryError "f" .unhandledType)
    ∧ structUnmarshalFields [(⟨"b", .KeepEmpty, .Opt, .tInt⟩, QsVal.vInt 0)]
        [("b", ["x"])]
      = ([QsVal.vInt 0], .err (.entryError "b" (.numError .malformed))) := by
  constructor
  · have h := c6_abort_amended.1 [] [] ⟨"f", .KeepEmpty, .Opt, .tFunc⟩ QsVal.vFunc [] []
      .unhandledType rfl (by simp) rfl
    simpa using h
  · have h := c6_abort_amended.2 [] [] ⟨"b", .KeepEmpty, .Opt, .tInt⟩ (QsVal.vInt 0)
      [("b", ["x"])] ["x"] (.numError .malformed) rfl rfl rfl
    simpa using h

/-- C7 (amended): the sequence codec's element-arity requirement is
enforced at runtime during an actual encode, not at construction:
constructing the codec for a sequence type succeeds or fails exactly as
constructing its element codec does (no arity inspection happens), and
encoding a sequence whose element yields a number of strings different
from one fails then, at the offending index.  Encoding an empty or nil
sequence emits no strings (hence no entry). -/
theorem c7_arity_amended (n : Nat) (t : QsType) (v : QsVal) (es : List QsVal)
    (l : List String) (hok : marshal t v = .ok l) (hne : l.length ≠ 1) :
    buildMarshaler (.tSlice t) = buildMarshaler t
    ∧ buildMarshaler (.tArray n t) = buildMarshaler t
    ∧ marshal (.tSlice t) (.vSlice []) = .ok []
    ∧ marshal (.tSlice t) .vSliceNil = .ok []
    ∧ marshal (.tSlice t) (.vSlice (v :: es)) = .error (.arityError 0 l.length) := by
  refine ⟨rfl, rfl, by simp [marshal], by simp [marshal], ?_⟩
  have hvs : marshal (.tSlice t) (.vSlice (v :: es))
      = seqMarshalLoop (fun e => marshal t e) (v :: es) 0 := by
    simp [marshal]
  rw [hvs, seqMarshalLoop]
  simp only [hok]
  rcases l with _ | ⟨x, xs⟩
  · rfl
  · rcases xs with _ | ⟨y, ys⟩
    · simp at hne
    · rfl

/-- C7 counterexample: multi-valued elements are not rejected when the
sequence codec is constructed: the marshaler for `[][]int` is built
successfully, and the arity violation only surfaces as an error during an
actual encode call at runtime. -/
theorem c7_counterexample :
    buildMarshaler (.tSlice (.tSlice .tInt)) = .ok ()
    ∧ marshal (.tSlice (.tSlice .tInt)) (.vSlice [.vSlice [.vInt 1, .vInt 2]])
        = .error (.arityError 0 2) := by
  refine ⟨rfl, ?_⟩
  have h1 : formatInt 1 = "1" := by simp [formatInt, natDigits]; rfl
  have h2 : formatInt 2 = "2" := by simp [formatInt, natDigits]; rfl
  simp [marshal, seqMarshalLoop, h1, h2]

theorem c7_arity_witness :
    marshal (.tSlice (.tSlice .tInt)) (.vSlice [.vSlice []])
      = .error (.arityError 0 0)
    ∧ buildMarshaler (.tSlice (.tSlice .tInt)) = buildMarshaler (.tSlice .tInt) := by
  obtain ⟨ha, _, _, _, hb⟩ :=
    c7_arity_amended 0 (.tSlice .tInt) (QsVal.vSlice []) [] [] rfl (by decide)
  exact ⟨hb, ha⟩

end Qs
